import Mathlib

/-!
Shallow embedding of the path-instruction data model and editing algorithms of
the fabric-path-editor repository (src/src/index.ts, the `FabricPathEditor`
class), together with proofs settling the frozen claims about its
specification.

Coordinates are modelled as rationals.  A path instruction is the tagged
variant stored by the editor in its `path.path` array:
`['M',x,y]`, `['L',x,y]`, `['Q',cx,cy,x,y]`, `['C',c1x,c1y,c2x,c2y,x,y]`,
`['z']`.
-/

/-- Model of the source's `Crood` record: a 2-D coordinate. -/
structure Crood where
  x : ℚ
  y : ℚ
deriving DecidableEq

/-- Model of the source's `Instruction` array together with its
`InstructionType` tag (`M`, `L`, `Q`, `C`, `z`). -/
inductive Instruction where
  | start (p : Crood)
  | line (p : Crood)
  | quadratic (c p : Crood)
  | bezier (c1 c2 p : Crood)
  | close
deriving DecidableEq

/-- Tag test for the `M` (START) instruction. -/
def Instruction.isStart : Instruction → Bool
  | .start _ => true
  | _ => false

/-- Tag test for the `z` (CLOSE) instruction. -/
def Instruction.isClose : Instruction → Bool
  | .close => true
  | _ => false

/-- Membership test for the source's `CurceInstructionTypes` list
(`Q` and `C`). -/
def Instruction.isCurve : Instruction → Bool
  | .quadratic _ _ => true
  | .bezier _ _ _ => true
  | _ => false

/-- An instruction other than `M` and `z`: a drawn segment. -/
def Instruction.isSeg : Instruction → Bool
  | .line _ => true
  | .quadratic _ _ => true
  | .bezier _ _ _ => true
  | _ => false

/-- The source reads an instruction's terminal coordinate as
`instruction.slice(instruction.length - 2)`.  For `z`, which stores no
coordinates, the source would read junk; every use below guards that case and
we return `(0, 0)` there. -/
def endCrood : Instruction → Crood
  | .start p => p
  | .line p => p
  | .quadratic _ p => p
  | .bezier _ _ p => p
  | .close => ⟨0, 0⟩

/-- Length of the JS array representing an instruction
(tag plus coordinates). -/
def instrLen : Instruction → ℕ
  | .start _ => 3
  | .line _ => 3
  | .quadratic _ _ => 5
  | .bezier _ _ _ => 7
  | .close => 1

/-- Reading the coordinate pair stored at JS array positions
`(idx, idx + 1)` of an instruction; positions that hold no coordinate pair in
the source array give `(0, 0)`. -/
def coordAt : Instruction → ℕ → Crood
  | .start p, 1 => p
  | .line p, 1 => p
  | .quadratic c _, 1 => c
  | .quadratic _ p, 3 => p
  | .bezier c1 _ _, 1 => c1
  | .bezier _ c2 _, 3 => c2
  | .bezier _ _ p, 5 => p
  | _, _ => ⟨0, 0⟩

/-- Writing the coordinate pair at JS array positions `(idx, idx + 1)`
(`instruction[idx] = x; instruction[idx + 1] = y`); a write outside the
coordinate slots of the array leaves the parsed coordinates unchanged. -/
def writeCoordIdx : Instruction → ℕ → Crood → Instruction
  | .start _, 1, v => .start v
  | .line _, 1, v => .line v
  | .quadratic _ p, 1, v => .quadratic v p
  | .quadratic c _, 3, v => .quadratic c v
  | .bezier _ c2 p, 1, v => .bezier v c2 p
  | .bezier c1 _ p, 3, v => .bezier c1 v p
  | .bezier c1 c2 _, 5, v => .bezier c1 c2 v
  | i, _, _ => i

/-- The terminal-coordinate write `instruction[instruction.length - 2] = x;
instruction[instruction.length - 1] = y` used by `move`.  On `z` the source
writes at array position `-1`, which does not change any stored coordinate. -/
def writeTerminal (i : Instruction) (v : Crood) : Instruction :=
  writeCoordIdx i (instrLen i - 2) v

/-- Helper for `_splitPath` (src/src/index.ts lines 1343-1360): the body of the
`reduce`, processing the remaining instructions with `cur` the subpath
currently being collected.  A `M` instruction closes the current (nonempty)
group and starts a new one; a `z` instruction that is not the final
instruction closes the current group. -/
def splitAux (cur : List Instruction) : List Instruction → List (List Instruction)
  | [] => [cur]
  | i :: rest =>
    if i.isStart && !cur.isEmpty then
      cur :: splitAux [i] rest
    else if i.isClose && !rest.isEmpty then
      (cur ++ [i]) :: splitAux [] rest
    else
      splitAux (cur ++ [i]) rest

/-- Model of `_splitPath`: decompose the instruction list into subpaths.
The JS `reduce` starts from the single empty group `[[]]`. -/
def splitPath (path : List Instruction) : List (List Instruction) :=
  splitAux [] path

theorem splitAux_flatten (l : List Instruction) :
    ∀ cur, (splitAux cur l).flatten = cur ++ l := by
  induction l with
  | nil => intro cur; simp [splitAux]
  | cons i rest ih =>
      intro cur
      rw [splitAux]
      by_cases h1 : (i.isStart && !cur.isEmpty) = true
      · rw [if_pos h1, List.flatten_cons, ih [i]]; simp
      · rw [if_neg h1]
        by_cases h2 : (i.isClose && !rest.isEmpty) = true
        · rw [if_pos h2, List.flatten_cons, ih []]
          simp
        · rw [if_neg h2, ih (cur ++ [i])]
          simp

/-- C9: Subpath decomposition partitions the instruction list without loss or
reordering: concatenating, in order, the subpaths returned by `_splitPath`
yields exactly the original instruction list, for every instruction list
(including the empty list and lists with interior `z` or `M`
instructions). -/
theorem splitPath_join_eq (l : List Instruction) : (splitPath l).flatten = l := by
  simpa using splitAux_flatten l []

/-- One iteration of the `switch` in `_invertPath` (src/src/index.ts lines
1681-1711): the instructions pushed for the instruction `a`, whose preceding
instruction has terminal coordinate `pre`, when `flag` records whether a `z`
was already seen at a later position (`isClosePath`).  A cubic's two control
points swap roles; a quadratic's single control is kept. -/
def invertContrib (a : Instruction) (pre : Crood) (flag : Bool) : List Instruction :=
  match a with
  | .start _ => if flag then [.close] else []
  | .line _ => [.line pre]
  | .quadratic c _ => [.quadratic c pre]
  | .bezier c1 c2 _ => [.bezier c2 c1 pre]
  | .close => []

/-- The descending index loop of `_invertPath` (src/src/index.ts lines
1659-1712), phrased on the reversed instruction list: the element after `a`
in the reversed list is the instruction preceding `a` in the path, whose
terminal coordinate the loop reads as `preMajorPointCrood`.  When no
preceding instruction exists the source reads an undefined value; the only
instructions whose contribution would use it are handled without it
(`M` pushes nothing or `z`, and `z` pushes nothing), so `(0, 0)` stands in. -/
def invertBack (flag : Bool) : List Instruction → List Instruction
  | [] => []
  | [a] => invertContrib a ⟨0, 0⟩ flag
  | a :: b :: rest => invertContrib a (endCrood b) flag ++ invertBack (flag || a.isClose) (b :: rest)

/-- Model of `_invertPath` (src/src/index.ts lines 1654-1715).  Before the
switch, at the last index the loop pushes a `M` instruction: at the terminal
of the preceding instruction when the last instruction is `z`, otherwise at
the last instruction's own terminal.  The degenerate single-`z` subpath, on
which the source would crash reading an undefined preceding instruction, is
given the stand-in coordinate `(0, 0)`.  The coordinate of the pushed `M`
instruction, from the last instruction `a` of the path and the rest of the
reversed list: -/
def invertHeadCrood : Instruction → List Instruction → Crood
  | .close, b :: _ => endCrood b
  | .close, [] => ⟨0, 0⟩
  | a, _ => endCrood a

/-- Model of `_invertPath`: the descending loop over the reversed list. -/
def invertPath (path : List Instruction) : List Instruction :=
  match path.reverse with
  | [] => []
  | a :: rest => Instruction.start (invertHeadCrood a rest) :: invertBack false (a :: rest)

/-- Head correction of `_patchPath` (src/src/index.ts lines 1236-1241): a
subpath whose first instruction is not `M` gets that instruction replaced by
`M` at its terminal coordinate.  For a leading `z` the source would build a
malformed two-entry array out of the tag character; that case is excluded by
the hypotheses of every theorem below and the instruction is kept
unchanged here. -/
def fixHeadInstr : Instruction → Instruction
  | .line p => .start p
  | .quadratic _ p => .start p
  | .bezier _ _ p => .start p
  | i => i

/-- Close patching of one subpath in `_patchPath` (src/src/index.ts lines
1234-1264): fix the head instruction, then, when the subpath ends in `z` and
either the subpath is the two-entry `[M, z]` (the source compares
`itemPath[0] === itemPath[itemPath.length - 2]`, which holds exactly when the
two indices coincide) or the terminal of the instruction before `z` differs
from the start point, splice a `L` back to the start point in front of the
`z`.  On the degenerate single-`z` subpath the source crashes; here it is
returned unchanged (excluded by the theorems' hypotheses).  The close check,
on the subpath with its head already fixed (whose `slice`-read start point is
the head's terminal coordinate): -/
def patchFixed (s : List Instruction) : List Instruction :=
  if s.getLast? = some Instruction.close then
    if s.length = 2
        ∨ endCrood ((s.get? (s.length - 2)).getD Instruction.close)
          ≠ endCrood ((s.head?).getD Instruction.close) then
      s.dropLast
        ++ [Instruction.line (endCrood ((s.head?).getD Instruction.close)), Instruction.close]
    else s
  else s

/-- Close patching of one subpath: fix the head instruction, then run the
close check. -/
def patchItem (g : List Instruction) : List Instruction :=
  match g with
  | [] => []
  | h :: t => patchFixed (fixHeadInstr h :: t)

/-- Translation branch of the static `transformPath` (src/src/index.ts lines
1077-1122), which adds the translation vector to every coordinate pair stored
in an instruction. -/
def translateInstr (t : Crood) : Instruction → Instruction
  | .start p => .start ⟨p.x + t.x, p.y + t.y⟩
  | .line p => .line ⟨p.x + t.x, p.y + t.y⟩
  | .quadratic c p => .quadratic ⟨c.x + t.x, c.y + t.y⟩ ⟨p.x + t.x, p.y + t.y⟩
  | .bezier c1 c2 p =>
      .bezier ⟨c1.x + t.x, c1.y + t.y⟩ ⟨c2.x + t.x, c2.y + t.y⟩ ⟨p.x + t.x, p.y + t.y⟩
  | .close => .close

/-- Model of a `fabric.Path` as far as `_patchPath` consults it: the
instruction list and the `pathOffset` point. -/
structure FPath where
  path : List Instruction
  pathOffset : Crood
deriving DecidableEq

/-- Model of `_patchPath` (src/src/index.ts lines 1221-1270), the load-time
normalization: translate every coordinate by the negated `pathOffset`
(offset clearing), split into subpaths, patch each subpath's head and closing
segment, invert every subpath, re-flatten, and set `pathOffset` to zero. -/
def patchPath (p : FPath) : FPath :=
  let translated := (p.path).map (translateInstr ⟨-p.pathOffset.x, -p.pathOffset.y⟩)
  let itemPaths := (splitPath translated).map patchItem
  ⟨(itemPaths.map invertPath).flatten, ⟨0, 0⟩⟩

/-!
Structural description of `_invertPath` on well-formed subpaths, used to
derive the involution and normalization facts.  A well-formed subpath is
`M p0` followed by a body of segment instructions and an optional trailing
`z`; `_splitPath` produces exactly such shapes for inputs whose subpaths do
not begin with `z`.
-/

/-- Redirecting a segment instruction to end at `p` while re-pairing control
points for reversed traversal, as `_invertPath` pushes it. -/
def retarget (a : Instruction) (p : Crood) : Instruction :=
  match a with
  | .line _ => .line p
  | .quadratic c _ => .quadratic c p
  | .bezier c1 c2 _ => .bezier c2 c1 p
  | x => x

/-- Terminal coordinate of the first instruction of a list, with default. -/
def headEnd (p0 : Crood) : List Instruction → Crood
  | [] => p0
  | b :: _ => endCrood b

/-- Terminal coordinate of the last instruction of a list, with default:
the anchor reached after drawing the whole body from `p0`. -/
def lastEnd (p0 : Crood) (l : List Instruction) : Crood :=
  match l.getLast? with
  | some b => endCrood b
  | none => p0

/-- Retargeting every body instruction at its predecessor's anchor, in
original order; its reverse is the body of the inverted subpath. -/
def chainRetarget (p0 : Crood) : List Instruction → List Instruction
  | [] => []
  | a :: rest => retarget a p0 :: chainRetarget (endCrood a) rest

theorem lastEnd_nil (p0 : Crood) : lastEnd p0 [] = p0 := rfl

theorem lastEnd_cons (p0 : Crood) (a : Instruction) (l : List Instruction) :
    lastEnd p0 (a :: l) = lastEnd (endCrood a) l := by
  cases l with
  | nil => rfl
  | cons b t =>
      unfold lastEnd
      rw [List.getLast?_cons_cons]
      cases hg : (b :: t).getLast? with
      | none =>
          exact absurd hg (by simp)
      | some x => rfl

theorem lastEnd_reverse (p0 : Crood) (l : List Instruction) :
    lastEnd p0 l.reverse = headEnd p0 l := by
  cases l with
  | nil => rfl
  | cons a t =>
      rw [List.reverse_cons]
      unfold lastEnd
      rw [List.getLast?_concat]
      rfl

theorem endCrood_retarget {a : Instruction} (h : a.isSeg = true) (p : Crood) :
    endCrood (retarget a p) = p := by
  cases a <;> simp_all [Instruction.isSeg, retarget, endCrood]

theorem isSeg_retarget {a : Instruction} (h : a.isSeg = true) (p : Crood) :
    (retarget a p).isSeg = true := by
  cases a <;> simp_all [Instruction.isSeg, retarget]

theorem retarget_retarget {a : Instruction} (h : a.isSeg = true) (p : Crood) :
    retarget (retarget a p) (endCrood a) = a := by
  cases a <;> simp_all [Instruction.isSeg, retarget, endCrood]

theorem invertContrib_seg {a : Instruction} (h : a.isSeg = true)
    (pre : Crood) (flag : Bool) : invertContrib a pre flag = [retarget a pre] := by
  cases a <;> simp_all [Instruction.isSeg, invertContrib, retarget]

theorem isClose_of_seg {a : Instruction} (h : a.isSeg = true) : a.isClose = false := by
  cases a <;> simp_all [Instruction.isSeg, Instruction.isClose]

theorem chainRetarget_append (p0 : Crood) (xs ys : List Instruction) :
    chainRetarget p0 (xs ++ ys)
      = chainRetarget p0 xs ++ chainRetarget (lastEnd p0 xs) ys := by
  induction xs generalizing p0 with
  | nil => simp [chainRetarget, lastEnd_nil]
  | cons x t ih => simp [chainRetarget, ih (endCrood x), lastEnd_cons]

theorem chainRetarget_segs {body : List Instruction}
    (h : ∀ a ∈ body, a.isSeg = true) (p0 : Crood) :
    ∀ a ∈ chainRetarget p0 body, a.isSeg = true := by
  induction body generalizing p0 with
  | nil => simp [chainRetarget]
  | cons b t ih =>
      intro a ha
      simp only [chainRetarget, List.mem_cons] at ha
      rcases ha with rfl | ha
      · exact isSeg_retarget (h b (by simp)) p0
      · exact ih (fun x hx => h x (by simp [hx])) (endCrood b) a ha

theorem invertBack_body (flag : Bool) (p0 : Crood) :
    ∀ rb : List Instruction, (∀ a ∈ rb, a.isSeg = true) →
      invertBack flag (rb ++ [.start p0])
        = (chainRetarget p0 rb.reverse).reverse
            ++ (if flag then [Instruction.close] else []) := by
  intro rb
  induction rb generalizing flag with
  | nil =>
      intro _
      simp [invertBack, invertContrib, chainRetarget]
  | cons a rest ih =>
      intro hsegs
      have ha : a.isSeg = true := hsegs a (by simp)
      have hrest : ∀ x ∈ rest, x.isSeg = true := fun x hx => hsegs x (by simp [hx])
      cases rest with
      | nil =>
          show invertContrib a (endCrood (.start p0)) flag
              ++ invertBack (flag || a.isClose) [.start p0] = _
          rw [invertContrib_seg ha, isClose_of_seg ha]
          show [retarget a p0] ++ invertContrib (.start p0) ⟨0, 0⟩ (flag || false) = _
          simp [invertContrib, chainRetarget]
      | cons b rest2 =>
          show invertContrib a (endCrood b) flag
              ++ invertBack (flag || a.isClose) (b :: rest2 ++ [.start p0]) = _
          rw [invertContrib_seg ha, isClose_of_seg ha, Bool.or_false,
            ih flag hrest]
          have hrev : (a :: b :: rest2).reverse = (b :: rest2).reverse ++ [a] := by
            simp
          rw [hrev, chainRetarget_append, lastEnd_reverse]
          simp [headEnd, chainRetarget]

theorem invertPath_open (p0 : Crood) (body : List Instruction)
    (h : ∀ a ∈ body, a.isSeg = true) :
    invertPath (.start p0 :: body)
      = .start (lastEnd p0 body) :: (chainRetarget p0 body).reverse := by
  cases hb : body.reverse with
  | nil =>
      have hnil : body = [] := by
        have := congrArg List.reverse hb
        simpa using this
      subst hnil
      show invertPath [.start p0] = _
      unfold invertPath
      simp [invertBack, invertContrib, invertHeadCrood, chainRetarget, lastEnd_nil, endCrood]
  | cons a rest =>
      have hbody : body = (a :: rest).reverse := by
        rw [← hb, List.reverse_reverse]
      have ha : a.isSeg = true := by
        refine h a ?_
        rw [hbody]
        exact List.mem_reverse.mpr (by simp)
      have hseg_rev : ∀ x ∈ a :: rest, x.isSeg = true := by
        intro x hx
        refine h x ?_
        rw [hbody]
        exact List.mem_reverse.mpr hx
      have hrev : (Instruction.start p0 :: body).reverse
          = a :: (rest ++ [.start p0]) := by
        rw [List.reverse_cons, hb, List.cons_append]
      unfold invertPath
      rw [hrev]
      show Instruction.start (invertHeadCrood a (rest ++ [.start p0]))
          :: invertBack false (a :: (rest ++ [.start p0])) = _
      have hback := invertBack_body false p0 (a :: rest) hseg_rev
      rw [List.cons_append] at hback
      rw [hback]
      have hhead : invertHeadCrood a (rest ++ [.start p0]) = endCrood a := by
        cases a <;> simp_all [Instruction.isSeg, invertHeadCrood]
      rw [hhead]
      have hlast : lastEnd p0 body = endCrood a := by
        have h2 := lastEnd_reverse p0 (a :: rest)
        rw [← hbody] at h2
        simpa [headEnd] using h2
      rw [hlast, ← hbody]
      simp

theorem invertPath_closed (p0 : Crood) (body : List Instruction)
    (h : ∀ a ∈ body, a.isSeg = true) :
    invertPath (.start p0 :: body ++ [.close])
      = .start (lastEnd p0 body)
          :: (chainRetarget p0 body).reverse ++ [.close] := by
  have hrev : (Instruction.start p0 :: (body ++ [.close])).reverse
      = .close :: (body.reverse ++ [.start p0]) := by
    simp
  have hstep : Instruction.start p0 :: body ++ [.close]
      = Instruction.start p0 :: (body ++ [.close]) := by simp
  rw [hstep]
  unfold invertPath
  rw [hrev]
  show Instruction.start (invertHeadCrood .close (body.reverse ++ [.start p0]))
      :: invertBack false (.close :: (body.reverse ++ [.start p0]))
      = _
  have hsegs_rev : ∀ x ∈ body.reverse, x.isSeg = true := by
    intro x hx; exact h x (by simpa using hx)
  have hback : invertBack false (.close :: (body.reverse ++ [.start p0]))
      = invertBack true (body.reverse ++ [.start p0]) := by
    cases hb : body.reverse with
    | nil => simp [invertBack, invertContrib, Instruction.isClose]
    | cons a rest =>
        show invertContrib .close (endCrood a) false
            ++ invertBack (false || Instruction.close.isClose) (a :: rest ++ [.start p0]) = _
        simp [invertContrib, Instruction.isClose]
  rw [hback, invertBack_body true p0 body.reverse hsegs_rev]
  have hhead : invertHeadCrood .close (body.reverse ++ [.start p0])
      = lastEnd p0 body := by
    cases hb : body.reverse with
    | nil =>
        have hnil : body = [] := by
          have := congrArg List.reverse hb
          simpa using this
        subst hnil
        simp [invertHeadCrood, endCrood, lastEnd_nil]
    | cons a rest =>
        have hbody : body = (a :: rest).reverse := by
          rw [← hb, List.reverse_reverse]
        have hl : lastEnd p0 body = endCrood a := by
          have h2 := lastEnd_reverse p0 (a :: rest)
          rw [← hbody] at h2
          simpa [headEnd] using h2
        simp [invertHeadCrood, hl]
  rw [hhead]
  simp

theorem chainRetarget_involution (body : List Instruction)
    (h : ∀ a ∈ body, a.isSeg = true) (p0 : Crood) :
    chainRetarget (lastEnd p0 body) (chainRetarget p0 body).reverse
      = body.reverse := by
  induction body generalizing p0 with
  | nil => simp [chainRetarget]
  | cons b bs ih =>
      have hb : b.isSeg = true := h b (by simp)
      have hbs : ∀ x ∈ bs, x.isSeg = true := fun x hx => h x (by simp [hx])
      have e := endCrood b
      rw [lastEnd_cons]
      show chainRetarget (lastEnd (endCrood b) bs)
          ((retarget b p0 :: chainRetarget (endCrood b) bs).reverse) = _
      rw [List.reverse_cons, chainRetarget_append, ih hbs (endCrood b)]
      have hM : lastEnd (lastEnd (endCrood b) bs)
          ((chainRetarget (endCrood b) bs).reverse) = endCrood b := by
        rw [lastEnd_reverse]
        cases bs with
        | nil => simp [chainRetarget, headEnd, lastEnd_nil]
        | cons c cs =>
            have hc : c.isSeg = true := hbs c (by simp)
            simp [chainRetarget, headEnd, endCrood_retarget hc]
      rw [hM]
      simp [chainRetarget, retarget_retarget hb]

theorem lastEnd_chainRetarget (p0 : Crood) (body : List Instruction)
    (h : ∀ a ∈ body, a.isSeg = true) :
    lastEnd (lastEnd p0 body) ((chainRetarget p0 body).reverse) = p0 := by
  rw [lastEnd_reverse]
  cases body with
  | nil => simp [chainRetarget, headEnd, lastEnd_nil]
  | cons b bs =>
      have hb : b.isSeg = true := h b (by simp)
      simp [chainRetarget, headEnd, endCrood_retarget hb]

theorem invertPath_invertPath_open (p0 : Crood) (body : List Instruction)
    (hsegs : ∀ a ∈ body, a.isSeg = true) :
    invertPath (invertPath (.start p0 :: body)) = .start p0 :: body := by
  have hsegs2 : ∀ a ∈ (chainRetarget p0 body).reverse, a.isSeg = true := by
    intro a ha
    exact chainRetarget_segs hsegs p0 a (List.mem_reverse.mp ha)
  rw [invertPath_open p0 body hsegs,
    invertPath_open (lastEnd p0 body) ((chainRetarget p0 body).reverse) hsegs2,
    chainRetarget_involution body hsegs p0, lastEnd_chainRetarget p0 body hsegs]
  simp

theorem invertPath_invertPath_closed (p0 : Crood) (body : List Instruction)
    (hsegs : ∀ a ∈ body, a.isSeg = true) :
    invertPath (invertPath (.start p0 :: body ++ [.close]))
      = .start p0 :: body ++ [.close] := by
  have hsegs2 : ∀ a ∈ (chainRetarget p0 body).reverse, a.isSeg = true := by
    intro a ha
    exact chainRetarget_segs hsegs p0 a (List.mem_reverse.mp ha)
  rw [invertPath_closed p0 body hsegs,
    invertPath_closed (lastEnd p0 body) ((chainRetarget p0 body).reverse) hsegs2,
    chainRetarget_involution body hsegs p0, lastEnd_chainRetarget p0 body hsegs]
  simp

/-- C7: Subpath inversion is an involution up to geometry: for every
well-formed subpath (a `M` head, a body of drawn segments and an optional
trailing `z`), `_invertPath` applied twice returns the subpath itself (in
fact the very same instruction list, which is stronger than geometric
equivalence), and a single application always rewrites the first instruction
of the result to a `M` at the original last anchor (the terminal coordinate
of the last drawn instruction).  The definition of `invertPath` also records
that traversal order is reversed and a cubic's two control points are
swapped. -/
theorem invertPath_involution (p0 : Crood) (body tz : List Instruction)
    (hsegs : ∀ a ∈ body, a.isSeg = true)
    (htz : tz = [] ∨ tz = [Instruction.close]) :
    invertPath (invertPath (.start p0 :: body ++ tz)) = .start p0 :: body ++ tz
      ∧ (invertPath (.start p0 :: body ++ tz)).head?
          = some (.start (lastEnd p0 body)) := by
  rcases htz with rfl | rfl
  · refine ⟨by simpa using invertPath_invertPath_open p0 body hsegs, ?_⟩
    have h1 := invertPath_open p0 body hsegs
    simp only [List.append_nil]
    rw [h1]
    rfl
  · refine ⟨invertPath_invertPath_closed p0 body hsegs, ?_⟩
    rw [invertPath_closed p0 body hsegs]
    rfl

/-- Witness for C7 at the concrete subpath `M (0,0) L (1,2)`. -/
theorem invertPath_involution_witness :
    invertPath (invertPath (.start ⟨0, 0⟩ :: [.line ⟨1, 2⟩] ++ []))
        = .start ⟨0, 0⟩ :: [.line ⟨1, 2⟩] ++ []
      ∧ (invertPath (.start ⟨0, 0⟩ :: [.line ⟨1, 2⟩] ++ [])).head?
          = some (.start (lastEnd ⟨0, 0⟩ [.line ⟨1, 2⟩])) :=
  invertPath_involution ⟨0, 0⟩ [.line ⟨1, 2⟩] [] (by decide) (Or.inl rfl)

/-!
Shape analysis of `_splitPath` output and of the close patch, leading to the
normalization theorems.
-/

/-- Shape of every group produced by `_splitPath`: possibly empty; otherwise
an arbitrary head instruction followed by drawn segments, with at most one
trailing `z`. -/
def RawGroup (g : List Instruction) : Prop :=
  g = [] ∨ ∃ h mid tz, g = h :: mid ++ tz ∧ (∀ a ∈ mid, a.isSeg = true) ∧
    (tz = [] ∨ tz = [Instruction.close])

/-- Shape of every subpath after the close patch of `_patchPath`: a `M` head,
a body of drawn segments and, when the subpath is closed, a nonempty body
whose last anchor coincides with the start point. -/
def PatchedSub (g : List Instruction) : Prop :=
  ∃ p0 body, (∀ a ∈ body, a.isSeg = true) ∧
    (g = .start p0 :: body ∨
      (g = .start p0 :: body ++ [.close] ∧ body ≠ [] ∧ lastEnd p0 body = p0))

theorem instr_trichotomy (i : Instruction) :
    i.isStart = true ∨ i.isClose = true ∨ i.isSeg = true := by
  cases i <;> simp [Instruction.isStart, Instruction.isClose, Instruction.isSeg]

theorem isStart_of_seg {a : Instruction} (h : a.isSeg = true) : a.isStart = false := by
  cases a <;> simp_all [Instruction.isSeg, Instruction.isStart]

theorem eq_close_of_isClose {a : Instruction} (h : a.isClose = true) : a = .close := by
  cases a <;> simp_all [Instruction.isClose]

theorem eq_start_of_isStart {a : Instruction} (h : a.isStart = true) :
    a = .start (endCrood a) := by
  cases a <;> simp_all [Instruction.isStart, endCrood]

theorem splitAux_ne_nil (l : List Instruction) : ∀ cur, splitAux cur l ≠ [] := by
  induction l with
  | nil => intro cur; simp [splitAux]
  | cons i rest ih =>
      intro cur
      rw [splitAux]
      by_cases h1 : (i.isStart && !cur.isEmpty) = true
      · simp [h1]
      · rw [if_neg h1]
        by_cases h2 : (i.isClose && !rest.isEmpty) = true
        · simp [h2]
        · rw [if_neg h2]
          exact ih (cur ++ [i])

theorem splitAux_shape (l : List Instruction) :
    ∀ cur, (cur = [] ∨ ∃ h mid, cur = h :: mid ∧ ∀ a ∈ mid, a.isSeg = true) →
      ∀ g ∈ splitAux cur l, RawGroup g := by
  induction l with
  | nil =>
      intro cur hcur g hg
      simp only [splitAux, List.mem_singleton] at hg
      subst hg
      rcases hcur with rfl | ⟨h, mid, rfl, hmid⟩
      · exact Or.inl rfl
      · exact Or.inr ⟨h, mid, [], by simp, hmid, Or.inl rfl⟩
  | cons i rest ih =>
      intro cur hcur g hg
      rw [splitAux] at hg
      by_cases h1 : (i.isStart && !cur.isEmpty) = true
      · rw [if_pos h1] at hg
        rcases List.mem_cons.mp hg with rfl | hg2
        · rcases hcur with rfl | ⟨h, mid, rfl, hmid⟩
          · exact Or.inl rfl
          · exact Or.inr ⟨h, mid, [], by simp, hmid, Or.inl rfl⟩
        · exact ih [i] (Or.inr ⟨i, [], rfl, by simp⟩) g hg2
      · rw [if_neg h1] at hg
        by_cases h2 : (i.isClose && !rest.isEmpty) = true
        · rw [if_pos h2] at hg
          have hic : i = .close := eq_close_of_isClose (by
            have := h2
            simp only [Bool.and_eq_true] at this
            exact this.1)
          rcases List.mem_cons.mp hg with rfl | hg2
          · rcases hcur with rfl | ⟨h, mid, rfl, hmid⟩
            · exact Or.inr ⟨i, [], [], by simp, by simp, Or.inl rfl⟩
            · exact Or.inr ⟨h, mid, [.close], by simp [hic], hmid, Or.inr rfl⟩
          · exact ih [] (Or.inl rfl) g hg2
        · rw [if_neg h2] at hg
          rcases instr_trichotomy i with hi | hi | hi
          · have hcur2 : cur = [] := by
              by_contra hne
              have : (i.isStart && !cur.isEmpty) = true := by
                simp [hi, List.isEmpty_iff, hne]
              exact h1 this
            subst hcur2
            exact ih [i] (Or.inr ⟨i, [], by simp, by simp⟩) g hg
          · have hrest : rest = [] := by
              by_contra hne
              have : (i.isClose && !rest.isEmpty) = true := by
                simp [hi, List.isEmpty_iff, hne]
              exact h2 this
            subst hrest
            have hic : i = .close := eq_close_of_isClose hi
            simp only [splitAux, List.mem_singleton] at hg
            subst hg
            rcases hcur with rfl | ⟨h, mid, rfl, hmid⟩
            · exact Or.inr ⟨i, [], [], by simp, by simp, Or.inl rfl⟩
            · exact Or.inr ⟨h, mid, [.close], by simp [hic], hmid, Or.inr rfl⟩
          · refine ih (cur ++ [i]) ?_ g hg
            rcases hcur with rfl | ⟨h, mid, rfl, hmid⟩
            · exact Or.inr ⟨i, [], by simp, by simp⟩
            · refine Or.inr ⟨h, mid ++ [i], by simp, ?_⟩
              intro a ha
              rcases List.mem_append.mp ha with ha2 | ha2
              · exact hmid a ha2
              · simpa using List.mem_singleton.mp ha2 ▸ hi

theorem splitPath_shape (l : List Instruction) :
    ∀ g ∈ splitPath l, RawGroup g :=
  splitAux_shape l [] (Or.inl rfl)

theorem splitAux_ne_nil_groups (l : List Instruction) :
    ∀ cur, (cur ≠ [] ∨ l ≠ []) → ∀ g ∈ splitAux cur l, g ≠ [] := by
  induction l with
  | nil =>
      intro cur hcur g hg
      simp only [splitAux, List.mem_singleton] at hg
      subst hg
      rcases hcur with h | h
      · exact h
      · exact absurd rfl h
  | cons i rest ih =>
      intro cur hcur g hg
      rw [splitAux] at hg
      by_cases h1 : (i.isStart && !cur.isEmpty) = true
      · rw [if_pos h1] at hg
        rcases List.mem_cons.mp hg with rfl | hg2
        · intro hc
          subst hc
          simp at h1
        · exact ih [i] (Or.inl (by simp)) g hg2
      · rw [if_neg h1] at hg
        by_cases h2 : (i.isClose && !rest.isEmpty) = true
        · rw [if_pos h2] at hg
          rcases List.mem_cons.mp hg with rfl | hg2
          · simp
          · refine ih [] (Or.inr ?_) g hg2
            simp only [Bool.and_eq_true] at h2
            simpa [List.isEmpty_iff] using h2.2
        · rw [if_neg h2] at hg
          exact ih (cur ++ [i]) (Or.inl (by simp)) g hg

theorem splitPath_ne_nil_groups {l : List Instruction} (h : l ≠ []) :
    ∀ g ∈ splitPath l, g ≠ [] :=
  splitAux_ne_nil_groups l [] (Or.inr h)

theorem fixHead_of_not_close {h : Instruction} (hh : h.isClose = false) :
    fixHeadInstr h = .start (endCrood h) := by
  cases h <;> simp_all [Instruction.isClose, fixHeadInstr, endCrood]

theorem getLast_seg_not_close :
    ∀ (mid : List Instruction) (x : Instruction), (∀ a ∈ mid, a.isSeg = true) →
      x.isClose = false → ¬((x :: mid).getLast? = some Instruction.close) := by
  intro mid
  induction mid with
  | nil =>
      intro x _ hx hc
      simp only [List.getLast?_singleton, Option.some_inj] at hc
      subst hc
      simp [Instruction.isClose] at hx
  | cons m ms ih =>
      intro x hsegs hx hc
      rw [List.getLast?_cons_cons] at hc
      exact ih m (fun a ha => hsegs a (by simp [ha]))
        (isClose_of_seg (hsegs m (by simp))) hc

theorem get_before_close :
    ∀ (mid : List Instruction) (x : Instruction),
      (((x :: mid ++ [Instruction.close]).get? mid.length).getD .close)
        = List.getLastD mid x := by
  intro mid
  induction mid with
  | nil => intro x; rfl
  | cons m ms ih =>
      intro x
      show (((m :: ms ++ [Instruction.close]).get? ms.length).getD .close) = _
      rw [ih m, List.getLastD_cons]

theorem endCrood_getLastD (p0 : Crood) (mid : List Instruction) :
    endCrood (List.getLastD mid (.start p0)) = lastEnd p0 mid := by
  unfold lastEnd
  rw [List.getLastD_eq_getLast?]
  cases mid.getLast? <;> rfl

theorem lastEnd_concat (p0 : Crood) (xs : List Instruction) (y : Instruction) :
    lastEnd p0 (xs ++ [y]) = endCrood y := by
  unfold lastEnd
  rw [List.getLast?_concat]

theorem patchItem_no_close (h : Instruction) (mid : List Instruction)
    (hh : h.isClose = false) (hmid : ∀ a ∈ mid, a.isSeg = true) :
    patchItem (h :: mid) = .start (endCrood h) :: mid := by
  show patchFixed (fixHeadInstr h :: mid) = _
  rw [fixHead_of_not_close hh]
  unfold patchFixed
  rw [if_neg (getLast_seg_not_close mid (.start (endCrood h)) hmid rfl)]

theorem patchItem_closed (h : Instruction) (mid : List Instruction)
    (hh : h.isClose = false) :
    patchItem (h :: mid ++ [.close])
      = if mid = [] ∨ lastEnd (endCrood h) mid ≠ endCrood h
        then .start (endCrood h) :: (mid ++ [.line (endCrood h)]) ++ [.close]
        else .start (endCrood h) :: mid ++ [.close] := by
  show patchFixed (fixHeadInstr h :: mid ++ [.close]) = _
  rw [fixHead_of_not_close hh]
  unfold patchFixed
  have hlast : (Instruction.start (endCrood h) :: mid ++ [Instruction.close]).getLast?
      = some .close := by
    rw [show Instruction.start (endCrood h) :: mid ++ [Instruction.close]
        = (Instruction.start (endCrood h) :: mid) ++ [Instruction.close] by simp]
    exact List.getLast?_concat _
  rw [if_pos hlast]
  have hlen : (Instruction.start (endCrood h) :: mid ++ [Instruction.close]).length
      = mid.length + 2 := by simp
  have hget : endCrood (((Instruction.start (endCrood h) :: mid ++ [Instruction.close]).get?
      ((Instruction.start (endCrood h) :: mid ++ [Instruction.close]).length - 2)).getD .close)
      = lastEnd (endCrood h) mid := by
    rw [hlen]
    have h2 : mid.length + 2 - 2 = mid.length := by omega
    rw [h2, get_before_close mid (.start (endCrood h)), endCrood_getLastD]
  have hhead : endCrood (((Instruction.start (endCrood h) :: mid
      ++ [Instruction.close]).head?).getD Instruction.close) = endCrood h := by
    rfl
  have hcond : ((Instruction.start (endCrood h) :: mid ++ [Instruction.close]).length = 2
        ∨ endCrood (((Instruction.start (endCrood h) :: mid
            ++ [Instruction.close]).get? ((Instruction.start (endCrood h) :: mid
            ++ [Instruction.close]).length - 2)).getD .close)
          ≠ endCrood (((Instruction.start (endCrood h) :: mid
            ++ [Instruction.close]).head?).getD Instruction.close))
      ↔ (mid = [] ∨ lastEnd (endCrood h) mid ≠ endCrood h) := by
    rw [hget, hhead, hlen]
    constructor
    · rintro (h1 | h1)
      · left
        have : mid.length = 0 := by omega
        exact List.length_eq_zero.mp this
      · exact Or.inr h1
    · rintro (rfl | h1)
      · left; rfl
      · exact Or.inr h1
  by_cases hc : mid = [] ∨ lastEnd (endCrood h) mid ≠ endCrood h
  · rw [if_pos (hcond.mpr hc), if_pos hc]
    have hdrop : (Instruction.start (endCrood h) :: mid ++ [Instruction.close]).dropLast
        = Instruction.start (endCrood h) :: mid := by
      rw [show Instruction.start (endCrood h) :: mid ++ [Instruction.close]
          = (Instruction.start (endCrood h) :: mid) ++ [Instruction.close] by simp]
      exact List.dropLast_concat
    rw [hdrop, hhead]
    simp
  · rw [if_neg (fun hx => hc (hcond.mp hx)), if_neg hc]

theorem patchItem_patched {g : List Instruction} (hg : RawGroup g) (hne : g ≠ [])
    (hhead : g.head? ≠ some Instruction.close) : PatchedSub (patchItem g) := by
  rcases hg with rfl | ⟨h, mid, tz, rfl, hmid, htz⟩
  · exact absurd rfl hne
  · have hh : h.isClose = false := by
      by_contra hx
      have : h = .close := eq_close_of_isClose (by simpa using hx)
      subst this
      exact hhead rfl
    rcases htz with rfl | rfl
    · rw [show h :: mid ++ ([] : List Instruction) = h :: mid by simp,
        patchItem_no_close h mid hh hmid]
      exact ⟨endCrood h, mid, hmid, Or.inl rfl⟩
    · rw [patchItem_closed h mid hh]
      by_cases hc : mid = [] ∨ lastEnd (endCrood h) mid ≠ endCrood h
      · rw [if_pos hc]
        refine ⟨endCrood h, mid ++ [.line (endCrood h)], ?_, Or.inr ⟨by simp, by simp, ?_⟩⟩
        · intro a ha
          rcases List.mem_append.mp ha with ha2 | ha2
          · exact hmid a ha2
          · rw [List.mem_singleton.mp ha2]; rfl
        · rw [lastEnd_concat]; rfl
      · rw [if_neg hc]
        push_neg at hc
        exact ⟨endCrood h, mid, hmid, Or.inr ⟨rfl, hc.1, hc.2⟩⟩

theorem patchItem_of_patched {g : List Instruction} (hg : PatchedSub g) :
    patchItem g = g := by
  rcases hg with ⟨p0, body, hsegs, hshape | ⟨hshape, hne, hlast⟩⟩
  · subst hshape
    rw [patchItem_no_close (.start p0) body rfl hsegs]
    rfl
  · subst hshape
    rw [patchItem_closed (.start p0) body rfl]
    rw [if_neg ?_]
    · rfl
    · push_neg
      exact ⟨hne, by simpa [endCrood] using hlast⟩

theorem invertPath_patched {g : List Instruction} (hg : PatchedSub g) :
    PatchedSub (invertPath g) := by
  rcases hg with ⟨p0, body, hsegs, hshape | ⟨hshape, hne, hlast⟩⟩
  · subst hshape
    rw [invertPath_open p0 body hsegs]
    exact ⟨lastEnd p0 body, (chainRetarget p0 body).reverse,
      fun a ha => chainRetarget_segs hsegs p0 a (List.mem_reverse.mp ha), Or.inl rfl⟩
  · subst hshape
    rw [invertPath_closed p0 body hsegs]
    refine ⟨lastEnd p0 body, (chainRetarget p0 body).reverse,
      fun a ha => chainRetarget_segs hsegs p0 a (List.mem_reverse.mp ha),
      Or.inr ⟨rfl, ?_, ?_⟩⟩
    · cases body with
      | nil => exact absurd rfl hne
      | cons b bs => simp [chainRetarget]
    · have hx := lastEnd_chainRetarget p0 body hsegs
      rw [hlast] at hx
      rw [hlast]
      exact hx

theorem invertPath_invertPath_patched {g : List Instruction} (hg : PatchedSub g) :
    invertPath (invertPath g) = g := by
  rcases hg with ⟨p0, body, hsegs, hshape | ⟨hshape, _, _⟩⟩
  · subst hshape
    exact invertPath_invertPath_open p0 body hsegs
  · subst hshape
    exact invertPath_invertPath_closed p0 body hsegs

theorem patchedSub_head {g : List Instruction} (hg : PatchedSub g) :
    ∃ p0 X, g = .start p0 :: X := by
  rcases hg with ⟨p0, body, _, hshape | ⟨hshape, _, _⟩⟩
  · exact ⟨p0, body, hshape⟩
  · exact ⟨p0, body ++ [.close], by simpa using hshape⟩

theorem splitAux_nil_eq (cur : List Instruction) : splitAux cur [] = [cur] := rfl

theorem splitAux_seg {b : Instruction} (hb : b.isSeg = true)
    (cur rest : List Instruction) :
    splitAux cur (b :: rest) = splitAux (cur ++ [b]) rest := by
  rw [splitAux, if_neg (by simp [isStart_of_seg hb]),
    if_neg (by simp [isClose_of_seg hb])]

theorem splitAux_start_full {cur : List Instruction} (h : cur ≠ []) (q : Crood)
    (rest : List Instruction) :
    splitAux cur (.start q :: rest) = cur :: splitAux [.start q] rest := by
  rw [splitAux, if_pos (by simp [Instruction.isStart, List.isEmpty_iff, h])]

theorem splitAux_start_empty (q : Crood) (rest : List Instruction) :
    splitAux [] (.start q :: rest) = splitAux [.start q] rest := by
  rw [splitAux, if_neg (by simp), if_neg (by simp [Instruction.isClose])]
  rfl

theorem splitAux_close_mid {rest : List Instruction} (h : rest ≠ [])
    (cur : List Instruction) :
    splitAux cur (.close :: rest) = (cur ++ [.close]) :: splitAux [] rest := by
  rw [splitAux, if_neg (by simp [Instruction.isStart]),
    if_pos (by simp [Instruction.isClose, List.isEmpty_iff, h])]

theorem splitAux_close_last (cur : List Instruction) :
    splitAux cur [.close] = [cur ++ [.close]] := by
  rw [splitAux, if_neg (by simp [Instruction.isStart]), if_neg (by simp)]
  rfl

theorem splitAux_segs_append (body : List Instruction)
    (hsegs : ∀ a ∈ body, a.isSeg = true) :
    ∀ cur r, splitAux cur (body ++ r) = splitAux (cur ++ body) r := by
  induction body with
  | nil => intro cur r; simp
  | cons b bs ih =>
      intro cur r
      have hb : b.isSeg = true := hsegs b (by simp)
      show splitAux cur (b :: (bs ++ r)) = _
      rw [splitAux_seg hb, ih (fun a ha => hsegs a (by simp [ha])) (cur ++ [b]) r]
      simp

theorem splitAux_patched_group {g rest : List Instruction} (hg : PatchedSub g)
    (hrest : rest = [] ∨ ∃ q r2, rest = .start q :: r2) :
    splitAux [] (g ++ rest) = if rest = [] then [g] else g :: splitAux [] rest := by
  rcases hg with ⟨p0, body, hsegs, hshape | ⟨hshape, _, _⟩⟩
  · subst hshape
    show splitAux [] (.start p0 :: (body ++ rest)) = _
    rw [splitAux_start_empty, splitAux_segs_append body hsegs [.start p0] rest]
    rcases hrest with rfl | ⟨q, r2, rfl⟩
    · rw [if_pos rfl, splitAux_nil_eq]
      simp
    · rw [if_neg (by simp), splitAux_start_full (by simp) q r2, splitAux_start_empty]
      simp
  · subst hshape
    show splitAux [] (.start p0 :: ((body ++ [.close]) ++ rest)) = _
    rw [splitAux_start_empty,
      show (body ++ [Instruction.close]) ++ rest = body ++ (.close :: rest) by simp,
      splitAux_segs_append body hsegs [.start p0] (.close :: rest)]
    rcases hrest with rfl | ⟨q, r2, rfl⟩
    · rw [if_pos rfl, splitAux_close_last]
      simp
    · rw [if_neg (by simp), splitAux_close_mid (by simp)]
      simp

theorem splitPath_flatten_patched :
    ∀ gs : List (List Instruction), gs ≠ [] → (∀ g ∈ gs, PatchedSub g) →
      splitPath gs.flatten = gs := by
  intro gs
  induction gs with
  | nil => intro h _; exact absurd rfl h
  | cons g gs2 ih =>
      intro _ hall
      have hgp : PatchedSub g := hall g (by simp)
      cases gs2 with
      | nil =>
          show splitAux [] (g ++ [].flatten) = [g]
          rw [show ([] : List (List Instruction)).flatten = [] by rfl,
            splitAux_patched_group hgp (Or.inl rfl), if_pos rfl]
      | cons g2 gs3 =>
          have hg2 : PatchedSub g2 := hall g2 (by simp)
          obtain ⟨q, X, hq⟩ := patchedSub_head hg2
          have hrest : (g2 :: gs3).flatten = .start q :: (X ++ gs3.flatten) := by
            rw [List.flatten_cons, hq]; simp
          show splitAux [] (g ++ (g2 :: gs3).flatten) = _
          rw [splitAux_patched_group hgp (Or.inr ⟨q, X ++ gs3.flatten, hrest⟩),
            if_neg (by rw [hrest]; simp)]
          congr 1
          exact ih (by simp) (fun x hx => hall x (by simp [hx]))

theorem translateInstr_zero (a : Instruction) :
    translateInstr ⟨-(0 : ℚ), -(0 : ℚ)⟩ a = a := by
  cases a <;> simp [translateInstr]

theorem map_translate_zero (l : List Instruction) :
    l.map (translateInstr ⟨-(0 : ℚ), -(0 : ℚ)⟩) = l := by
  conv_rhs => rw [← List.map_id l]
  exact List.map_congr_left fun a _ => translateInstr_zero a

theorem map_patchItem_patched {gs : List (List Instruction)}
    (h : ∀ g ∈ gs, PatchedSub g) : gs.map patchItem = gs := by
  conv_rhs => rw [← List.map_id gs]
  exact List.map_congr_left fun g hg => patchItem_of_patched (h g hg)

theorem patchPath_eq (p : FPath) :
    patchPath p
      = ⟨(((splitPath ((p.path).map
          (translateInstr ⟨-p.pathOffset.x, -p.pathOffset.y⟩))).map patchItem).map
            invertPath).flatten, ⟨0, 0⟩⟩ := rfl

theorem patchPath_zero_eq (X : List Instruction) :
    patchPath ⟨X, ⟨0, 0⟩⟩
      = ⟨(((splitPath X).map patchItem).map invertPath).flatten, ⟨0, 0⟩⟩ := by
  show FPath.mk (((splitPath (X.map (translateInstr ⟨-(0 : ℚ), -(0 : ℚ)⟩))).map
      patchItem).map invertPath).flatten ⟨0, 0⟩ = _
  rw [map_translate_zero]

theorem map_map_ne_nil {G : List (List Instruction)} (hG : G ≠ [])
    (f g : List Instruction → List Instruction) : (G.map f).map g ≠ [] := by
  cases G with
  | nil => exact absurd rfl hG
  | cons a t => simp

theorem patchPath_again (G : List (List Instruction)) (hG : G ≠ [])
    (hp : ∀ g ∈ G, PatchedSub (patchItem g)) :
    patchPath ⟨((G.map patchItem).map invertPath).flatten, ⟨0, 0⟩⟩
      = ⟨(G.map patchItem).flatten, ⟨0, 0⟩⟩ := by
  have hH : ∀ x ∈ (G.map patchItem).map invertPath, PatchedSub x := by
    intro x hx
    rw [List.map_map] at hx
    obtain ⟨g, hg, rfl⟩ := List.mem_map.mp hx
    exact invertPath_patched (hp g hg)
  have hHne : (G.map patchItem).map invertPath ≠ [] :=
    map_map_ne_nil hG patchItem invertPath
  rw [patchPath_zero_eq, splitPath_flatten_patched _ hHne hH,
    map_patchItem_patched hH]
  congr 1
  rw [List.map_map, List.map_map]
  refine congrArg List.flatten ?_
  exact List.map_congr_left fun g hg =>
    invertPath_invertPath_patched (hp g hg)

theorem patchPath_patchOnly (G : List (List Instruction)) (hG : G ≠ [])
    (hp : ∀ g ∈ G, PatchedSub (patchItem g)) :
    patchPath ⟨(G.map patchItem).flatten, ⟨0, 0⟩⟩
      = ⟨((G.map patchItem).map invertPath).flatten, ⟨0, 0⟩⟩ := by
  have hPI : ∀ x ∈ G.map patchItem, PatchedSub x := by
    intro x hx
    obtain ⟨g, hg, rfl⟩ := List.mem_map.mp hx
    exact hp g hg
  have hne : G.map patchItem ≠ [] := by
    cases G with
    | nil => exact absurd rfl hG
    | cons a t => simp
  rw [patchPath_zero_eq, splitPath_flatten_patched _ hne hPI,
    map_patchItem_patched hPI]

/-- C1 counterexample: normalization is not idempotent as stated.  On the
parsed path `M 0 0 L 10 0 L 10 10 Z` (offset already zero), running
`_patchPath` twice changes the instruction list again, because `_patchPath`
also reverses every subpath (the `map` over `_invertPath` at
src/src/index.ts line 1266). -/
theorem patchPath_not_idempotent :
    patchPath (patchPath ⟨[.start ⟨0, 0⟩, .line ⟨10, 0⟩, .line ⟨10, 10⟩, .close], ⟨0, 0⟩⟩)
      ≠ patchPath ⟨[.start ⟨0, 0⟩, .line ⟨10, 0⟩, .line ⟨10, 10⟩, .close], ⟨0, 0⟩⟩ := by
  norm_num [patchPath, splitPath, splitAux, patchItem, patchFixed, fixHeadInstr,
    invertPath, invertBack, invertContrib, invertHeadCrood, translateInstr, endCrood,
    lastEnd, Instruction.isStart, Instruction.isClose]

/-- C1 (amended): the offset clearing and explicit-closing-segment insertion
of load-time normalization are idempotent — re-running the split-and-patch
pass on an already-normalized instruction list (whose offset is zero) is a
no-op — but the full `_patchPath` additionally reverses every subpath, so it
satisfies `patchPath ∘ patchPath ∘ patchPath = patchPath` rather than
`patchPath ∘ patchPath = patchPath`.  The hypothesis excludes paths with a
subpath beginning in `z`, on which the source builds malformed
instructions. -/
theorem patchPath_third_iterate (p : FPath)
    (hheads : ∀ g ∈ splitPath ((p.path).map
        (translateInstr ⟨-p.pathOffset.x, -p.pathOffset.y⟩)),
      g.head? ≠ some Instruction.close) :
    ((splitPath (patchPath p).path).map patchItem).flatten = (patchPath p).path
      ∧ patchPath (patchPath (patchPath p)) = patchPath p := by
  by_cases ht : (p.path).map (translateInstr ⟨-p.pathOffset.x, -p.pathOffset.y⟩) = []
  · have h0 : patchPath p = ⟨[], ⟨0, 0⟩⟩ := by
      rw [patchPath_eq, ht]
      rfl
    constructor
    · rw [h0]
      rfl
    · rw [h0]
      rfl
  · have hGraw := splitPath_shape
      ((p.path).map (translateInstr ⟨-p.pathOffset.x, -p.pathOffset.y⟩))
    have hGne := splitPath_ne_nil_groups ht
    have hGp : ∀ g ∈ splitPath ((p.path).map
        (translateInstr ⟨-p.pathOffset.x, -p.pathOffset.y⟩)),
        PatchedSub (patchItem g) :=
      fun g hg => patchItem_patched (hGraw g hg) (hGne g hg) (hheads g hg)
    have hG0 : splitPath ((p.path).map
        (translateInstr ⟨-p.pathOffset.x, -p.pathOffset.y⟩)) ≠ [] :=
      splitAux_ne_nil _ []
    have hH : ∀ x ∈ ((splitPath ((p.path).map
        (translateInstr ⟨-p.pathOffset.x, -p.pathOffset.y⟩))).map patchItem).map
          invertPath, PatchedSub x := by
      intro x hx
      rw [List.map_map] at hx
      obtain ⟨g, hg, rfl⟩ := List.mem_map.mp hx
      exact invertPath_patched (hGp g hg)
    have hHne := map_map_ne_nil hG0 patchItem invertPath
    constructor
    · rw [patchPath_eq p]
      show ((splitPath ((((splitPath ((p.path).map
          (translateInstr ⟨-p.pathOffset.x, -p.pathOffset.y⟩))).map patchItem).map
            invertPath).flatten)).map patchItem).flatten = _
      rw [splitPath_flatten_patched _ hHne hH, map_patchItem_patched hH]
    · rw [patchPath_eq p, patchPath_again _ hG0 hGp, patchPath_patchOnly _ hG0 hGp]

/-- Witness for C1 at the parsed triangle `M 0 0 L 10 0 L 10 10 Z`. -/
theorem patchPath_third_iterate_witness :
    ((splitPath (patchPath ⟨[.start ⟨0, 0⟩, .line ⟨10, 0⟩, .line ⟨10, 10⟩, .close],
        ⟨0, 0⟩⟩).path).map patchItem).flatten
      = (patchPath ⟨[.start ⟨0, 0⟩, .line ⟨10, 0⟩, .line ⟨10, 10⟩, .close], ⟨0, 0⟩⟩).path
      ∧ patchPath (patchPath (patchPath
          ⟨[.start ⟨0, 0⟩, .line ⟨10, 0⟩, .line ⟨10, 10⟩, .close], ⟨0, 0⟩⟩))
        = patchPath ⟨[.start ⟨0, 0⟩, .line ⟨10, 0⟩, .line ⟨10, 10⟩, .close], ⟨0, 0⟩⟩ :=
  patchPath_third_iterate ⟨[.start ⟨0, 0⟩, .line ⟨10, 0⟩, .line ⟨10, 10⟩, .close], ⟨0, 0⟩⟩
    (by decide)

/-- C2: For every subpath ending in `z` whose last drawn instruction does not
land on the subpath's `M` point, the close patch inserts an explicit `L` back
to that point; and loading the path `M 0 0 L 10 0 L 10 10 Z` produces a
normalized instruction list equal to that of `M 0 0 L 10 0 L 10 10 L 0 0 Z`
(both strings are written here as their parsed instruction lists). -/
theorem patchClose_insertion :
    (∀ (p0 : Crood) (body : List Instruction), (∀ a ∈ body, a.isSeg = true) →
        lastEnd p0 body ≠ p0 →
        patchItem (.start p0 :: body ++ [.close])
          = (.start p0 :: body) ++ [.line p0, .close])
      ∧ patchPath ⟨[.start ⟨0, 0⟩, .line ⟨10, 0⟩, .line ⟨10, 10⟩, .close], ⟨0, 0⟩⟩
          = patchPath ⟨[.start ⟨0, 0⟩, .line ⟨10, 0⟩, .line ⟨10, 10⟩,
              .line ⟨0, 0⟩, .close], ⟨0, 0⟩⟩ := by
  constructor
  · intro p0 body hsegs hne
    rw [patchItem_closed (.start p0) body rfl,
      if_pos (Or.inr (by simpa [endCrood] using hne))]
    simp [endCrood]
  · norm_num [patchPath, splitPath, splitAux, patchItem, patchFixed, fixHeadInstr,
      invertPath, invertBack, invertContrib, invertHeadCrood, translateInstr, endCrood,
      lastEnd, Instruction.isStart, Instruction.isClose]

/-- Witness for C2 at `p0 = (0,0)` and body `L 10 0 L 10 10`. -/
theorem patchClose_insertion_witness :
    patchItem (.start ⟨0, 0⟩ :: [.line ⟨10, 0⟩, .line ⟨10, 10⟩] ++ [.close])
      = (.start ⟨0, 0⟩ :: [.line ⟨10, 0⟩, .line ⟨10, 10⟩]) ++ [.line ⟨0, 0⟩, .close] :=
  patchClose_insertion.1 ⟨0, 0⟩ [.line ⟨10, 0⟩, .line ⟨10, 10⟩] (by decide)
    (by norm_num [lastEnd, endCrood])

/-!
History model: the `records` field of the editor (src/src/index.ts lines
1012-1018), the commit in `updatePath` (lines 2305-2311) and the undo/redo
shortcuts (lines 1910-1934).  The JS arrays push and pop at their end; here
the top of each stack is the head of the list.
-/

/-- One history record: serialized path snapshot plus the translation
offset, as pushed by `updatePath`. -/
structure HistoryRecord where
  path : List Instruction
  left : ℚ
  top : ℚ
deriving DecidableEq

/-- The history state: the undo and redo stacks plus the record currently
applied to the edited path object (`this.target`). -/
structure EditorRecords where
  undoStack : List HistoryRecord
  redoStack : List HistoryRecord
  current : HistoryRecord
deriving DecidableEq

/-- The commit step of `updatePath` (src/src/index.ts lines 2305-2311): the
redo stack is emptied and the snapshot of the just-mutated path is pushed
onto the undo stack; `r` is that snapshot, which is also the state the
target now holds. -/
def updatePathRecord (st : EditorRecords) (r : HistoryRecord) : EditorRecords :=
  ⟨r :: st.undoStack, [], r⟩

/-- The `ctrl+z` shortcut (src/src/index.ts lines 1910-1923): only when the
undo stack holds more than one record, pop the top record onto the redo
stack and re-apply the new top via `_initializePath`. -/
def undoShortcut (st : EditorRecords) : EditorRecords :=
  if 1 < st.undoStack.length then
    match st.undoStack with
    | r :: prev :: rest => ⟨prev :: rest, r :: st.redoStack, prev⟩
    | _ => st
  else st

/-- The `ctrl+shift+z` shortcut (src/src/index.ts lines 1924-1934): pop the
redo stack and, when a record is there, push it back onto the undo stack and
re-apply it. -/
def redoShortcut (st : EditorRecords) : EditorRecords :=
  match st.redoStack with
  | r :: rest => ⟨r :: st.undoStack, rest, r⟩
  | [] => st

/-- The state right after `enterEditing` loads a path: the first
`updatePath` fired by `_initPathControlPoints` pushes the initial baseline
`b` onto the empty stacks. -/
def loadBaseline (b : HistoryRecord) : EditorRecords :=
  updatePathRecord ⟨[], [], b⟩ b

/-- Iterated undo. -/
def applyUndos : ℕ → EditorRecords → EditorRecords
  | 0, st => st
  | n + 1, st => applyUndos n (undoShortcut st)

/-- Committing a list of mutations in order. -/
def commitAll (st : EditorRecords) (rs : List HistoryRecord) : EditorRecords :=
  rs.foldl updatePathRecord st

theorem undoShortcut_cons_cons (r prev : HistoryRecord) (rest : List HistoryRecord)
    (redo : List HistoryRecord) (cur : HistoryRecord) :
    undoShortcut ⟨r :: prev :: rest, redo, cur⟩
      = ⟨prev :: rest, r :: redo, prev⟩ := by
  unfold undoShortcut
  rw [if_pos (by simp)]

theorem commitAll_spec (rs : List HistoryRecord) :
    ∀ u redo c, commitAll ⟨u, redo, c⟩ rs
      = ⟨rs.reverse ++ u, if rs = [] then redo else [], rs.getLastD c⟩ := by
  induction rs with
  | nil => intro u redo c; simp [commitAll]
  | cons r rest ih =>
      intro u redo c
      show commitAll ⟨r :: u, [], r⟩ rest = _
      rw [ih (r :: u) [] r]
      rw [List.getLastD_cons]
      simp

theorem applyUndos_reverse (b : HistoryRecord) :
    ∀ (xs : List HistoryRecord) (redo : List HistoryRecord) (cur : HistoryRecord),
      applyUndos xs.length ⟨xs ++ [b], redo, cur⟩
        = ⟨[b], xs.reverse ++ redo, if xs = [] then cur else b⟩ := by
  intro xs
  induction xs with
  | nil => intro redo cur; simp [applyUndos]
  | cons x t ih =>
      intro redo cur
      show applyUndos t.length (undoShortcut ⟨x :: (t ++ [b]), redo, cur⟩) = _
      have hstep : undoShortcut ⟨x :: (t ++ [b]), redo, cur⟩
          = ⟨t ++ [b], x :: redo, (t ++ [b]).head (by simp)⟩ := by
        cases t with
        | nil => simpa using undoShortcut_cons_cons x b [] redo cur
        | cons y t2 => simpa using undoShortcut_cons_cons x y (t2 ++ [b]) redo cur
      rw [hstep, ih (x :: redo) ((t ++ [b]).head (by simp))]
      by_cases h : t = []
      · subst h
        simp
      · rw [if_neg h, if_neg (by simp)]
        simp

/-- C5: After N committed mutations, N sequential undo operations restore
the path to the initial baseline snapshot (the undo stack is back to the
single baseline record and the baseline is re-applied); and every committed
mutation empties the redo stack, in particular any mutation issued while not
at the head of history. -/
theorem history_undo_restores_baseline (b : HistoryRecord)
    (rs : List HistoryRecord) :
    (applyUndos rs.length (commitAll (loadBaseline b) rs)).current = b
      ∧ (applyUndos rs.length (commitAll (loadBaseline b) rs)).undoStack = [b]
      ∧ ∀ (st : EditorRecords) (r : HistoryRecord),
          (updatePathRecord st r).redoStack = [] := by
  have hload : loadBaseline b = ⟨[b], [], b⟩ := rfl
  rw [hload, commitAll_spec rs [b] [] b]
  by_cases h : rs = []
  · subst h
    refine ⟨?_, ?_, fun st r => rfl⟩ <;> simp [applyUndos]
  · rw [if_neg h]
    have hlen : rs.reverse.length = rs.length := by simp
    have happ := applyUndos_reverse b rs.reverse [] (rs.getLastD b)
    rw [← hlen, happ, if_neg (by simp [h])]
    exact ⟨rfl, rfl, fun st r => rfl⟩

/-- A user-visible history operation: a committed mutation, an undo
shortcut, or a redo shortcut. -/
inductive HistoryOp where
  | commit (r : HistoryRecord)
  | undo
  | redo

/-- Dispatch of a history operation on the editor's records. -/
def applyHistoryOp (st : EditorRecords) : HistoryOp → EditorRecords
  | .commit r => updatePathRecord st r
  | .undo => undoShortcut st
  | .redo => redoShortcut st

theorem getLast?_cons_of_ne_nil {α : Type} {l : List α} (h : l ≠ []) (a : α) :
    (a :: l).getLast? = l.getLast? := by
  cases l with
  | nil => exact absurd rfl h
  | cons b t => exact List.getLast?_cons_cons

theorem history_step_preserves {b : HistoryRecord} {st : EditorRecords}
    (op : HistoryOp) (h1 : st.undoStack ≠ []) (h2 : st.undoStack.getLast? = some b) :
    (applyHistoryOp st op).undoStack ≠ []
      ∧ (applyHistoryOp st op).undoStack.getLast? = some b := by
  obtain ⟨u, re, c⟩ := st
  cases op with
  | commit r =>
      simp only [applyHistoryOp, updatePathRecord]
      refine ⟨by simp, ?_⟩
      show (r :: u).getLast? = some b
      rw [getLast?_cons_of_ne_nil h1 r]
      exact h2
  | undo =>
      simp only [applyHistoryOp]
      match u, h1, h2 with
      | [x], h1, h2 =>
          rw [show undoShortcut ⟨[x], re, c⟩ = ⟨[x], re, c⟩ by
            unfold undoShortcut; rw [if_neg (by simp)]]
          exact ⟨h1, h2⟩
      | x :: y :: t, h1, h2 =>
          rw [undoShortcut_cons_cons x y t re c]
          refine ⟨by simp, ?_⟩
          show (y :: t).getLast? = some b
          rw [List.getLast?_cons_cons] at h2
          exact h2
  | redo =>
      simp only [applyHistoryOp]
      cases re with
      | nil =>
          rw [show redoShortcut ⟨u, [], c⟩ = ⟨u, [], c⟩ from rfl]
          exact ⟨h1, h2⟩
      | cons r t =>
          rw [show redoShortcut ⟨u, r :: t, c⟩ = ⟨r :: u, t, r⟩ from rfl]
          refine ⟨by simp, ?_⟩
          show (r :: u).getLast? = some b
          rw [getLast?_cons_of_ne_nil h1 r]
          exact h2

/-- C10: The undo shortcut is a silent no-op when the undo stack holds at
most one record (the initial baseline), and through every sequence of undo,
redo and committed-mutation operations starting from the load baseline the
undo stack stays nonempty with the baseline record at its bottom — the
baseline snapshot is never consumed. -/
theorem undo_noop_baseline_preserved :
    (∀ st : EditorRecords, st.undoStack.length ≤ 1 → undoShortcut st = st)
      ∧ ∀ (b : HistoryRecord) (ops : List HistoryOp),
          (ops.foldl applyHistoryOp (loadBaseline b)).undoStack ≠ []
            ∧ ((ops.foldl applyHistoryOp (loadBaseline b)).undoStack).getLast?
                = some b := by
  refine ⟨?_, ?_⟩
  · intro st hlen
    unfold undoShortcut
    rw [if_neg (by omega)]
  · intro b ops
    have main : ∀ (ops2 : List HistoryOp) (st : EditorRecords),
        st.undoStack ≠ [] → st.undoStack.getLast? = some b →
        (ops2.foldl applyHistoryOp st).undoStack ≠ []
          ∧ ((ops2.foldl applyHistoryOp st).undoStack).getLast? = some b := by
      intro ops2
      induction ops2 with
      | nil => intro st h1 h2; exact ⟨h1, h2⟩
      | cons op rest ih =>
          intro st h1 h2
          exact ih (applyHistoryOp st op) (history_step_preserves op h1 h2).1
            (history_step_preserves op h1 h2).2
    exact main ops (loadBaseline b) (by simp [loadBaseline, updatePathRecord])
      (by simp [loadBaseline, updatePathRecord])

/-- Witness for C10 at a singleton undo stack and a concrete operation
sequence. -/
theorem undo_noop_baseline_preserved_witness :
    undoShortcut ⟨[⟨[], 0, 0⟩], [], ⟨[], 0, 0⟩⟩ = ⟨[⟨[], 0, 0⟩], [], ⟨[], 0, 0⟩⟩
      ∧ (([HistoryOp.undo, .redo, .commit ⟨[], 1, 1⟩, .undo].foldl applyHistoryOp
          (loadBaseline ⟨[], 0, 0⟩)).undoStack).getLast? = some ⟨[], 0, 0⟩ :=
  ⟨undo_noop_baseline_preserved.1 ⟨[⟨[], 0, 0⟩], [], ⟨[], 0, 0⟩⟩ (by decide),
   (undo_noop_baseline_preserved.2 ⟨[], 0, 0⟩
     [.undo, .redo, .commit ⟨[], 1, 1⟩, .undo]).2⟩

/-- Model of the static `convertQuadraticToCubic` (src/src/index.ts lines
1180-1203): the quadratic's two stored coordinate pairs are read from array
positions 1 and 3 (control `p1` and endpoint `p2`), `p0` is the previous
anchor, and the cubic controls follow the exact degree elevation
formulas. -/
def convertQuadraticToCubic (p0 : Crood) (instruction : Instruction) : Instruction :=
  let p1 := coordAt instruction 1
  let p2 := coordAt instruction 3
  let q1 : Crood := ⟨2 / 3 * p1.x + 1 / 3 * p0.x, 2 / 3 * p1.y + 1 / 3 * p0.y⟩
  let q2 : Crood := ⟨2 / 3 * p1.x + 1 / 3 * p2.x, 2 / 3 * p1.y + 1 / 3 * p2.y⟩
  .bezier q1 q2 p2

/-- C8: Quadratic-to-cubic conversion is exact degree elevation: for every
start anchor `p0`, quadratic control `p1` and endpoint `p2` the result is
`Cubic(q1, q2, q3)` with `q1 = (2/3)p1 + (1/3)p0`, `q2 = (2/3)p1 + (1/3)p2`
and `q3 = p2`; at `p0 = (0,0)`, `p1 = (10,20)`, `p2 = (20,0)` the computed
controls agree with `c1 = (6.667, 13.333)`, `c2 = (13.333, 13.333)`,
`c3 = (20, 0)` within tolerance `1/1000`. -/
theorem convertQuadraticToCubic_exact :
    (∀ p0 p1 p2 : Crood,
        convertQuadraticToCubic p0 (.quadratic p1 p2)
          = .bezier ⟨2 / 3 * p1.x + 1 / 3 * p0.x, 2 / 3 * p1.y + 1 / 3 * p0.y⟩
              ⟨2 / 3 * p1.x + 1 / 3 * p2.x, 2 / 3 * p1.y + 1 / 3 * p2.y⟩ p2)
      ∧ |(coordAt (convertQuadraticToCubic ⟨0, 0⟩ (.quadratic ⟨10, 20⟩ ⟨20, 0⟩)) 1).x
          - 6667 / 1000| ≤ 1 / 1000
      ∧ |(coordAt (convertQuadraticToCubic ⟨0, 0⟩ (.quadratic ⟨10, 20⟩ ⟨20, 0⟩)) 1).y
          - 13333 / 1000| ≤ 1 / 1000
      ∧ |(coordAt (convertQuadraticToCubic ⟨0, 0⟩ (.quadratic ⟨10, 20⟩ ⟨20, 0⟩)) 3).x
          - 13333 / 1000| ≤ 1 / 1000
      ∧ |(coordAt (convertQuadraticToCubic ⟨0, 0⟩ (.quadratic ⟨10, 20⟩ ⟨20, 0⟩)) 3).y
          - 13333 / 1000| ≤ 1 / 1000
      ∧ coordAt (convertQuadraticToCubic ⟨0, 0⟩ (.quadratic ⟨10, 20⟩ ⟨20, 0⟩)) 5
          = ⟨20, 0⟩ := by
  refine ⟨fun p0 p1 p2 => rfl, ?_, ?_, ?_, ?_, ?_⟩ <;>
    norm_num [convertQuadraticToCubic, coordAt, abs_le]

/-!
Handle mirror policy: the mirror detection loop of `_updatePointHandlers`
(src/src/index.ts lines 2458-2478) and the mirroring write in the handle
observe callback (lines 2414-2450).
-/

/-- One curve-handle controller as far as the mirror logic reads it: the
absolute position of its draggable point (`point.left`, `point.top`) and its
`hidden` flag (set from segment types when the handlers are rebuilt). -/
structure HandlerView where
  pos : Crood
  hidden : Bool
deriving DecidableEq

/-- The two handles adjacent to the active anchor: the anchor's absolute
position (`belong.left`, `belong.top`), the `pre` and `next` handlers, and
whether the mutual `mirror` pointers are currently set. -/
structure AnchorHandlers where
  anchor : Crood
  pre : Option HandlerView
  next : Option HandlerView
  linked : Bool
deriving DecidableEq

/-- The mirror detection pass (src/src/index.ts lines 2458-2478): for the
`pre` handler of an anchor, find the `next` handler of the same anchor and
set the mutual mirror pointers exactly when
`pre.left + next.left === belong.left * 2` and likewise for `top`.  The
`hidden` flags are not consulted here. -/
def detectMirror (anchor : Crood) (preH nextH : Option HandlerView) : Bool :=
  match preH, nextH with
  | some hp, some hn =>
      decide (hp.pos.x + hn.pos.x = anchor.x * 2)
        && decide (hp.pos.y + hn.pos.y = anchor.y * 2)
  | _, _ => false

/-- The paired handle of the dragged side. -/
inductive HandleSide where
  | pre
  | next
deriving DecidableEq

/-- Whether the mirror pointer of the dragged handle leads to a hidden
handle; with no paired handle there is no pointer to follow. -/
def pairedHidden : Option HandlerView → Bool
  | some h => h.hidden
  | none => true

/-- The handle-drag observe callback (src/src/index.ts lines 2414-2450),
restricted to the handle data it writes: the dragged handle's position is
set to `newPos`; then, when `extraActions` is off (mirroring suppressed) the
mirror pointers are cleared, and otherwise, when a handler point is active,
a mirror pointer is set and the paired handle is not hidden, the paired
handle is moved to `2 * belong - newPos` (point reflection through the
anchor). -/
def moveHandle (st : AnchorHandlers) (side : HandleSide) (newPos : Crood)
    (extraActions activeHandlerPoint : Bool) : AnchorHandlers :=
  let st1 :=
    match side with
    | .pre => { st with pre := (st.pre).map fun h => ⟨newPos, h.hidden⟩ }
    | .next => { st with next := (st.next).map fun h => ⟨newPos, h.hidden⟩ }
  let paired := match side with | HandleSide.pre => st1.next | HandleSide.next => st1.pre
  if !extraActions then
    { st1 with linked := false }
  else if activeHandlerPoint && st1.linked && !pairedHidden paired then
    let mirrored : Crood := ⟨2 * st1.anchor.x - newPos.x, 2 * st1.anchor.y - newPos.y⟩
    match side with
    | .pre => { st1 with next := (st1.next).map fun h => ⟨mirrored, h.hidden⟩ }
    | .next => { st1 with pre := (st1.pre).map fun h => ⟨mirrored, h.hidden⟩ }
  else st1

/-- C4 counterexample: the mirror relation is reported (the mirror pointers
are set) even when one of the two handles is hidden, because the detection
loop never reads the `hidden` flags: with anchor `(0,0)`, a hidden `pre`
handle at `(1,2)` and a visible `next` handle at `(-1,-2)` the sums match
and detection still answers true, contradicting the claimed
visibility condition. -/
theorem detectMirror_ignores_hidden :
    detectMirror ⟨0, 0⟩ (some ⟨⟨1, 2⟩, true⟩) (some ⟨⟨-1, -2⟩, false⟩) = true
      ∧ HandlerView.hidden ⟨⟨1, 2⟩, true⟩ = true := by
  refine ⟨?_, rfl⟩
  norm_num [detectMirror]

/-- C4 (amended): the mirror relation is reported true for an anchor iff
both adjacent handles exist and satisfy
`pre.pos + next.pos = 2 * anchor.pos` under exact equality — visibility is
not part of the detection; and when a mirror link is in effect, mirroring is
not suppressed, a handler point is active and the paired handle is not
hidden, moving one handle to `newPos` moves the paired handle to exactly
`2 * anchor - newPos`, while suppression (`extraActions` off) clears the
link instead. -/
theorem detectMirror_and_propagation :
    (∀ (anchor : Crood) (preH nextH : Option HandlerView),
        detectMirror anchor preH nextH = true
          ↔ ∃ hp hn, preH = some hp ∧ nextH = some hn
              ∧ hp.pos.x + hn.pos.x = anchor.x * 2
              ∧ hp.pos.y + hn.pos.y = anchor.y * 2)
      ∧ (∀ (st : AnchorHandlers) (newPos : Crood) (hn : HandlerView),
          st.linked = true → st.next = some hn → hn.hidden = false →
          (moveHandle st .pre newPos true true).next
              = some ⟨⟨2 * st.anchor.x - newPos.x, 2 * st.anchor.y - newPos.y⟩, hn.hidden⟩
            ∧ (moveHandle st .pre newPos true true).pre
              = (st.pre).map fun h => ⟨newPos, h.hidden⟩)
      ∧ ∀ (st : AnchorHandlers) (side : HandleSide) (newPos : Crood) (b : Bool),
          (moveHandle st side newPos false b).linked = false := by
  refine ⟨?_, ?_, ?_⟩
  · intro anchor preH nextH
    cases preH with
    | none => simp [detectMirror]
    | some hp =>
        cases nextH with
        | none => simp [detectMirror]
        | some hn => simp [detectMirror]
  · intro st newPos hn hlink hnext hvis
    unfold moveHandle
    rw [hnext]
    simp only [Bool.not_true, Bool.false_eq_true, if_false, hlink, pairedHidden, hvis]
    simp [hvis]
  · intro st side newPos b
    unfold moveHandle
    cases side <;> simp

/-- Witness for C4 at a concrete linked, visible configuration. -/
theorem detectMirror_and_propagation_witness :
    (moveHandle ⟨⟨0, 0⟩, some ⟨⟨1, 2⟩, false⟩, some ⟨⟨-1, -2⟩, false⟩, true⟩
        .pre ⟨5, 7⟩ true true).next
      = some ⟨⟨2 * (0 : ℚ) - 5, 2 * (0 : ℚ) - 7⟩, false⟩
    ∧ (moveHandle ⟨⟨0, 0⟩, some ⟨⟨1, 2⟩, false⟩, some ⟨⟨-1, -2⟩, false⟩, true⟩
        .pre ⟨5, 7⟩ true true).pre
      = (some (⟨⟨1, 2⟩, false⟩ : HandlerView)).map fun h => ⟨⟨5, 7⟩, h.hidden⟩ :=
  detectMirror_and_propagation.2.1
    ⟨⟨0, 0⟩, some ⟨⟨1, 2⟩, false⟩, some ⟨⟨-1, -2⟩, false⟩, true⟩ ⟨5, 7⟩
    ⟨⟨-1, -2⟩, false⟩ rfl rfl rfl

/-!
Subpath merging: the endpoint gate of `registerMergeEvent` (src/src/index.ts
lines 2032-2085) and `_mergePath` (lines 1720-1771).
-/

/-- Neighbor lookup of `_getAroundInstructions` (src/src/index.ts lines
1365-1404) restricted to one subpath, as instruction indices: the previous
index, which for the subpath's first instruction of a closed subpath wraps
to the second-to-last instruction (when that read is defined). -/
def aroundPre (s : List Instruction) (i : ℕ) : Option ℕ :=
  if i = 0 then
    if s.getLast? = some Instruction.close ∧ 2 ≤ s.length then some (s.length - 2)
    else none
  else some (i - 1)

/-- The following index; when the next instruction is the `z`, it is
redirected to the subpath's first instruction. -/
def aroundNext (s : List Instruction) (i : ℕ) : Option ℕ :=
  match s.get? (i + 1) with
  | none => none
  | some inst => some (if inst.isClose then 0 else i + 1)

/-- Whether instruction `i` of a subpath owns a visible anchor control
point: `_initPathControlPoints` (src/src/index.ts lines 1580-1588) skips the
`z` instruction and the instruction immediately before a `z` (its anchor
coincides with the start point after patching). -/
def validAnchor (s : List Instruction) (i : ℕ) : Bool :=
  (((s.get? i).map fun inst => !inst.isClose).getD false)
    && !(((s.get? (i + 1)).map Instruction.isClose).getD false)

/-- The endpoint gate of `registerMergeEvent` (src/src/index.ts lines
2036-2055): an anchor may take part in a merge only when it exists as a
control point and its instruction is missing a `pre` or a `next`
neighbor. -/
def isMergeCandidate (s : List Instruction) (i : ℕ) : Bool :=
  validAnchor s i && !((aroundPre s i).isSome && (aroundNext s i).isSome)

/-- The removal loop of `_mergePath` (src/src/index.ts lines 1737-1747): the
source and target subpaths are spliced out of the subpath list, the other
subpaths keeping their order. -/
def removeTwoAux (ssi tsi : ℕ) : ℕ → List (List Instruction) → List (List Instruction)
  | _, [] => []
  | k, g :: rest =>
      if k = ssi ∨ k = tsi then removeTwoAux ssi tsi (k + 1) rest
      else g :: removeTwoAux ssi tsi (k + 1) rest

/-- Removal of the subpaths at the two given positions. -/
def removeTwo (paths : List (List Instruction)) (ssi tsi : ℕ) : List (List Instruction) :=
  removeTwoAux ssi tsi 0 paths

/-- Model of `_mergePath` (src/src/index.ts lines 1720-1771) with the two
chosen anchors given as subpath and instruction indices: if both anchors lie
in the same subpath, a `z` is pushed onto it; otherwise the source subpath
is inverted when its anchor is the subpath's first instruction and the
target subpath is inverted when its anchor is the subpath's last, the target
subpath's leading `M` is shifted away, and the two are concatenated.  The
merged subpath is pushed at the end of the remaining subpath list and the
list re-flattened. -/
def mergePathModel (p : List Instruction) (ssi si tsi ti : ℕ) : List Instruction :=
  let itemPaths := splitPath p
  match itemPaths.get? ssi, itemPaths.get? tsi with
  | some sPath, some tPath =>
      let others := removeTwo itemPaths ssi tsi
      if ssi = tsi then (others ++ [sPath ++ [Instruction.close]]).flatten
      else
        let sPath2 := if si = 0 then invertPath sPath else sPath
        let tPath2 := if ti = tPath.length - 1 then invertPath tPath else tPath
        (others ++ [sPath2 ++ tPath2.tail]).flatten
  | _, _ => p

/-- A merge request as fired by `registerMergeEvent`: the merge is executed
only when both chosen anchors pass the endpoint gate and are distinct
points; otherwise the path is left unchanged. -/
def mergeEvent (p : List Instruction) (ssi si tsi ti : ℕ) : List Instruction :=
  let itemPaths := splitPath p
  let ok :=
    match itemPaths.get? ssi, itemPaths.get? tsi with
    | some sPath, some tPath =>
        isMergeCandidate sPath si && isMergeCandidate tPath ti
          && !(ssi = tsi && si = ti : Bool)
    | _, _ => false
  if ok then mergePathModel p ssi si tsi ti else p

theorem not_close_of_mem_open {p0 : Crood} {body : List Instruction}
    (hsegs : ∀ a ∈ body, a.isSeg = true) :
    ∀ x ∈ Instruction.start p0 :: body, x.isClose = false := by
  intro x hx
  rcases List.mem_cons.mp hx with rfl | hx2
  · rfl
  · exact isClose_of_seg (hsegs x hx2)

theorem mergeCandidate_only_open_endpoints (p0 : Crood)
    (body tz : List Instruction) (hsegs : ∀ a ∈ body, a.isSeg = true)
    (htz : tz = [] ∨ tz = [Instruction.close]) (i : ℕ)
    (hc : isMergeCandidate (.start p0 :: body ++ tz) i = true) :
    tz = [] ∧ (i = 0 ∨ i = body.length) := by
  unfold isMergeCandidate at hc
  rw [Bool.and_eq_true] at hc
  obtain ⟨hvalid, hnotboth⟩ := hc
  obtain ⟨inst, hgi⟩ : ∃ inst, (Instruction.start p0 :: body ++ tz).get? i = some inst := by
    cases hg : (Instruction.start p0 :: body ++ tz).get? i with
    | none =>
        exfalso
        unfold validAnchor at hvalid
        rw [hg] at hvalid
        simp at hvalid
    | some x => exact ⟨x, rfl⟩
  have hinst : inst.isClose = false := by
    unfold validAnchor at hvalid
    rw [hgi, Bool.and_eq_true] at hvalid
    simpa using hvalid.1
  have hlen : i < (Instruction.start p0 :: body ++ tz).length := by
    obtain ⟨hlt, _⟩ := List.get?_eq_some.mp hgi
    exact hlt
  rcases htz with rfl | rfl
  · refine ⟨rfl, ?_⟩
    by_cases hi : i = 0
    · exact Or.inl hi
    · right
      have hpre : (aroundPre (Instruction.start p0 :: body ++ []) i).isSome = true := by
        unfold aroundPre
        rw [if_neg hi]
        rfl
      have hnextnone : (aroundNext (Instruction.start p0 :: body ++ []) i).isSome = false := by
        cases hnn : (aroundNext (Instruction.start p0 :: body ++ []) i).isSome with
        | false => rfl
        | true =>
            exfalso
            rw [hpre, hnn] at hnotboth
            simp at hnotboth
      have hg2 : (Instruction.start p0 :: body ++ []).get? (i + 1) = none := by
        cases hgg : (Instruction.start p0 :: body ++ []).get? (i + 1) with
        | none => rfl
        | some x =>
            exfalso
            unfold aroundNext at hnextnone
            rw [hgg] at hnextnone
            simp at hnextnone
      have h1 := List.get?_eq_none.mp hg2
      simp at h1 hlen
      omega
  · exfalso
    have hi_ne : i ≠ body.length + 1 := by
      intro hie
      have : (Instruction.start p0 :: body ++ [Instruction.close]).get? i
          = some Instruction.close := by
        rw [hie, show Instruction.start p0 :: body ++ [Instruction.close]
            = (Instruction.start p0 :: body) ++ [Instruction.close] by simp,
          show body.length + 1 = (Instruction.start p0 :: body).length by simp]
        exact List.get?_concat_length _ _
      rw [hgi] at this
      have : inst = Instruction.close := by simpa using this
      subst this
      simp [Instruction.isClose] at hinst
    have hlen2 : (Instruction.start p0 :: body ++ [Instruction.close]).length
        = body.length + 2 := by simp
    have hi_le : i + 1 < body.length + 2 := by
      rw [hlen2] at hlen
      omega
    obtain ⟨x, hgx⟩ : ∃ x, (Instruction.start p0 :: body ++ [Instruction.close]).get? (i + 1)
        = some x := by
      cases hg : (Instruction.start p0 :: body ++ [Instruction.close]).get? (i + 1) with
      | none =>
          exfalso
          have := List.get?_eq_none.mp hg
          rw [hlen2] at this
          omega
      | some y => exact ⟨y, rfl⟩
    have hnext : (aroundNext (Instruction.start p0 :: body ++ [Instruction.close]) i).isSome
        = true := by
      unfold aroundNext
      rw [hgx]
      rfl
    have hpre : (aroundPre (Instruction.start p0 :: body ++ [Instruction.close]) i).isSome
        = true := by
      unfold aroundPre
      by_cases hi : i = 0
      · rw [if_pos hi, if_pos ?_]
        · rfl
        · constructor
          · rw [show Instruction.start p0 :: body ++ [Instruction.close]
                = (Instruction.start p0 :: body) ++ [Instruction.close] by simp]
            exact List.getLast?_concat _
          · rw [hlen2]; omega
      · rw [if_neg hi]; rfl
    rw [hpre, hnext] at hnotboth
    simp at hnotboth

/-- C6: Merging is permitted only for anchors that pass the endpoint gate,
and the gate admits exactly the boundary anchors of open subpaths (for a
well-formed subpath, a candidate must be open with the anchor first or
last); a merge request whose source anchor fails the gate leaves the path
unchanged (silent no-op); when both anchors lie in the same subpath the
merge pushes a `z` onto it; and merging the two open subpaths
`M 0 0 L 10 0` and `M 10 0 L 20 0` at their coincident endpoints yields the
single subpath `M 0 0 L 10 0 L 20 0`. -/
theorem mergeEvent_endpoint_rules :
    (∀ (p : List Instruction) (ssi si tsi ti : ℕ) (sPath : List Instruction),
        (splitPath p).get? ssi = some sPath → isMergeCandidate sPath si = false →
        mergeEvent p ssi si tsi ti = p)
      ∧ (∀ (p0 : Crood) (body tz : List Instruction), (∀ a ∈ body, a.isSeg = true) →
          (tz = [] ∨ tz = [Instruction.close]) → ∀ i,
          isMergeCandidate (.start p0 :: body ++ tz) i = true →
          tz = [] ∧ (i = 0 ∨ i = body.length))
      ∧ (∀ (p : List Instruction) (ssi si ti : ℕ) (sPath : List Instruction),
          (splitPath p).get? ssi = some sPath →
          isMergeCandidate sPath si = true → isMergeCandidate sPath ti = true →
          si ≠ ti →
          mergeEvent p ssi si ssi ti
            = ((removeTwo (splitPath p) ssi ssi) ++ [sPath ++ [Instruction.close]]).flatten)
      ∧ mergeEvent [.start ⟨0, 0⟩, .line ⟨10, 0⟩, .start ⟨10, 0⟩, .line ⟨20, 0⟩] 0 1 1 0
          = [.start ⟨0, 0⟩, .line ⟨10, 0⟩, .line ⟨20, 0⟩] := by
  refine ⟨?_, ?_, ?_, ?_⟩
  · intro p ssi si tsi ti sPath h1 h2
    simp only [mergeEvent]
    rw [h1]
    cases h3 : (splitPath p).get? tsi with
    | none => simp
    | some tPath => simp [h2]
  · exact fun p0 body tz hsegs htz i hc =>
      mergeCandidate_only_open_endpoints p0 body tz hsegs htz i hc
  · intro p ssi si ti sPath h1 hcs hct hne
    simp only [mergeEvent, mergePathModel]
    rw [h1]
    simp [hcs, hct, hne]
  · norm_num [mergeEvent, mergePathModel, splitPath, splitAux, isMergeCandidate,
      validAnchor, aroundPre, aroundNext, removeTwo, removeTwoAux, invertPath,
      Instruction.isClose, Instruction.isStart]
    intro h
    exact Instruction.noConfusion h

/-- Witness for C6: closing the single open subpath `M 0 0 L 5 5` by merging
its two endpoints. -/
theorem mergeEvent_endpoint_rules_witness :
    mergeEvent [.start ⟨0, 0⟩, .line ⟨5, 5⟩] 0 0 0 1
      = ((removeTwo (splitPath [.start ⟨0, 0⟩, .line ⟨5, 5⟩]) 0 0)
          ++ [[Instruction.start ⟨0, 0⟩, Instruction.line ⟨5, 5⟩]
              ++ [Instruction.close]]).flatten :=
  mergeEvent_endpoint_rules.2.2.1 [.start ⟨0, 0⟩, .line ⟨5, 5⟩] 0 0 1
    [.start ⟨0, 0⟩, .line ⟨5, 5⟩]
    (by norm_num [splitPath, splitAux, Instruction.isStart, Instruction.isClose])
    (by
      norm_num [isMergeCandidate, validAnchor, aroundPre, aroundNext,
        Instruction.isClose]
      intro h
      exact Instruction.noConfusion h)
    (by norm_num [isMergeCandidate, validAnchor, aroundPre, aroundNext,
      Instruction.isClose])
    (by decide)

/-!
Anchor movement: the `move` method (src/src/index.ts lines 2531-2629).  The
writes into the instruction list are: the moved anchor's terminal
coordinate, the translation of the adjacent `SUB_POINT` control coordinates
supplied by `_getAroundPoints` (lines 1418-1513), and the closed-subpath
synchronisation of the instruction before the `z` (lines 2613-2625).  A
single-point move is modelled (no selection group, unit scale).
-/

/-- An instruction slot as `_getAroundPoints` hands it to `move`: the
instruction's index inside the subpath and the JS array position of the
coordinate pair (`instructionValueIdx`). -/
structure SubSlot where
  idx : ℕ
  valueIdx : ℕ

/-- The `pre` around-point of `_getAroundPoints`, kept only when it is a
`SUB_POINT` (a control coordinate), since `move` rewrites only those: for a
`M` anchor of a closed subpath, the wrapped previous instruction's last
control (`pre.length - 4`); for a `Q` or `C` anchor, the instruction's own
incoming control.  `MAJOR_POINT` pre points (for `L` anchors, or the
`prePre` fallback) produce no write. -/
def prePointSub (s : List Instruction) (i : ℕ) : Option SubSlot :=
  match s.get? i with
  | some (.start _) =>
      match aroundPre s i with
      | some j =>
          match s.get? j with
          | some (.quadratic _ _) => some ⟨j, 1⟩
          | some (.bezier _ _ _) => some ⟨j, 3⟩
          | _ => none
      | none => none
  | some (.quadratic _ _) => some ⟨i, 1⟩
  | some (.bezier _ _ _) => some ⟨i, 3⟩
  | _ => none

/-- The `next` around-point: the following instruction's first coordinate
pair, a `SUB_POINT` exactly when that instruction is a curve. -/
def nextPointSub (s : List Instruction) (i : ℕ) : Option SubSlot :=
  match aroundNext s i with
  | some j =>
      match s.get? j with
      | some (.quadratic _ _) => some ⟨j, 1⟩
      | some (.bezier _ _ _) => some ⟨j, 1⟩
      | _ => none
  | none => none

/-- One `SUB_POINT` write of `move` (src/src/index.ts lines 2576-2589): the
control coordinate captured from `readL` (the list right after the terminal
write, where `_getAroundPoints` was called) is translated by the drag delta
`d` and written into the current list. -/
def applySlot (readL writeL : List Instruction) (ow : Option SubSlot) (d : Crood) :
    List Instruction :=
  match ow with
  | none => writeL
  | some w =>
      match readL.get? w.idx, writeL.get? w.idx with
      | some rinst, some winst =>
          writeL.set w.idx (writeCoordIdx winst w.valueIdx
            ⟨(coordAt rinst w.valueIdx).x + d.x, (coordAt rinst w.valueIdx).y + d.y⟩)
      | _, _ => writeL

/-- The terminal write plus the two control writes of `move`; the drag delta
is computed from the anchor's coordinate before the write. -/
def moveWrites (s : List Instruction) (i : ℕ) (q : Crood) (cur : Instruction) :
    List Instruction :=
  applySlot (s.set i (writeTerminal cur q))
    (applySlot (s.set i (writeTerminal cur q)) (s.set i (writeTerminal cur q))
      (prePointSub (s.set i (writeTerminal cur q)) i)
      ⟨q.x - (endCrood cur).x, q.y - (endCrood cur).y⟩)
    (nextPointSub (s.set i (writeTerminal cur q)) i)
    ⟨q.x - (endCrood cur).x, q.y - (endCrood cur).y⟩

/-- The closed-subpath synchronisation of `move` (src/src/index.ts lines
2613-2625): when the second-to-last instruction exists, is a different
instruction than the moved one, is not a `z`, the moved instruction is the
subpath's first, and the subpath ends in `z`, the second-to-last
instruction's terminal coordinate is also set to the new position. -/
def moveSync (s3 : List Instruction) (i k : ℕ) (q : Crood) : List Instruction :=
  if 2 ≤ s3.length ∧ i ≠ k
      ∧ ((s3.get? k).map Instruction.isClose).getD true = false
      ∧ i = 0 ∧ s3.getLast? = some Instruction.close then
    s3.set k (writeTerminal ((s3.get? k).getD .close) q)
  else s3

/-- Model of `move` restricted to the owning subpath: terminal write,
control-point translations, closed-subpath synchronisation. -/
def moveInSub (s : List Instruction) (i : ℕ) (q : Crood) : List Instruction :=
  match s.get? i with
  | none => s
  | some cur => moveSync (moveWrites s i q cur) i (s.length - 2) q

/-- The data of an instruction that the coincidence argument tracks:
terminal coordinate and the `z`/curve tags. -/
def instrView (inst : Instruction) : Crood × Bool × Bool :=
  (endCrood inst, inst.isClose, inst.isCurve)

theorem isClose_writeCoordIdx (inst : Instruction) (v : ℕ) (x : Crood) :
    (writeCoordIdx inst v x).isClose = inst.isClose := by
  unfold writeCoordIdx
  split <;> rfl

theorem isCurve_writeCoordIdx (inst : Instruction) (v : ℕ) (x : Crood) :
    (writeCoordIdx inst v x).isCurve = inst.isCurve := by
  unfold writeCoordIdx
  split <;> rfl

theorem endCrood_writeTerminal {inst : Instruction} (h : inst.isClose = false)
    (q : Crood) : endCrood (writeTerminal inst q) = q := by
  cases inst with
  | close => simp [Instruction.isClose] at h
  | start p => rfl
  | line p => rfl
  | quadratic c p => rfl
  | bezier c1 c2 p => rfl

theorem curve_write_one {inst : Instruction} (h : inst.isCurve = true)
    (val : Crood) : endCrood (writeCoordIdx inst 1 val) = endCrood inst := by
  cases inst with
  | quadratic c p => rfl
  | bezier c1 c2 p => rfl
  | _ => simp [Instruction.isCurve] at h

/-- Goodness of a slot: writing any value at the slot's coordinate position
leaves the target instruction's terminal coordinate unchanged (the slot is a
control position). -/
def CtrlSlot (wl : List Instruction) (ow : Option SubSlot) : Prop :=
  ∀ w, ow = some w → ∀ winst, wl.get? w.idx = some winst →
    ∀ val, endCrood (writeCoordIdx winst w.valueIdx val) = endCrood winst

theorem applySlot_view (r wl : List Instruction) (ow : Option SubSlot) (d : Crood)
    (hc : CtrlSlot wl ow) :
    (applySlot r wl ow d).length = wl.length
      ∧ ∀ m, ((applySlot r wl ow d).get? m).map instrView
          = (wl.get? m).map instrView := by
  cases ow with
  | none => exact ⟨rfl, fun m => rfl⟩
  | some w =>
      have hred : applySlot r wl (some w) d
          = (match r.get? w.idx, wl.get? w.idx with
            | some rinst, some winst =>
                wl.set w.idx (writeCoordIdx winst w.valueIdx
                  ⟨(coordAt rinst w.valueIdx).x + d.x, (coordAt rinst w.valueIdx).y + d.y⟩)
            | _, _ => wl) := rfl
      cases hr : r.get? w.idx with
      | none =>
          cases hw : wl.get? w.idx with
          | none =>
              have ha : applySlot r wl (some w) d = wl := by rw [hred, hr, hw]
              exact ⟨by rw [ha], fun m => by rw [ha]⟩
          | some winst =>
              have ha : applySlot r wl (some w) d = wl := by rw [hred, hr, hw]
              exact ⟨by rw [ha], fun m => by rw [ha]⟩
      | some rinst =>
          cases hw : wl.get? w.idx with
          | none =>
              have ha : applySlot r wl (some w) d = wl := by rw [hred, hr, hw]
              exact ⟨by rw [ha], fun m => by rw [ha]⟩
          | some winst =>
              have ha : applySlot r wl (some w) d
                  = wl.set w.idx (writeCoordIdx winst w.valueIdx
                    ⟨(coordAt rinst w.valueIdx).x + d.x,
                     (coordAt rinst w.valueIdx).y + d.y⟩) := by
                rw [hred, hr, hw]
              rw [ha]
              refine ⟨List.length_set wl w.idx _, ?_⟩
              intro m
              by_cases hm : w.idx = m
              · subst hm
                obtain ⟨hlt, _⟩ := List.get?_eq_some.mp hw
                rw [List.get?_set_eq_of_lt _ hlt, hw]
                have he := hc w rfl winst hw
                  ⟨(coordAt rinst w.valueIdx).x + d.x, (coordAt rinst w.valueIdx).y + d.y⟩
                simp [instrView, he, isClose_writeCoordIdx, isCurve_writeCoordIdx]
              · rw [List.get?_set_ne _ _ hm]

theorem ctrlSlot_pre (s1 : List Instruction) (i : ℕ) :
    CtrlSlot s1 (prePointSub s1 i) := by
  intro w hw winst hwin val
  unfold prePointSub at hw
  cases hgi : s1.get? i with
  | none => rw [hgi] at hw; exact Option.noConfusion hw
  | some cur =>
      rw [hgi] at hw
      cases cur with
      | start p =>
          have hwA : (match aroundPre s1 i with
              | some j =>
                  match s1.get? j with
                  | some (.quadratic _ _) => some (⟨j, 1⟩ : SubSlot)
                  | some (.bezier _ _ _) => some ⟨j, 3⟩
                  | _ => none
              | none => none) = some w := hw
          cases hap : aroundPre s1 i with
          | none => rw [hap] at hwA; exact Option.noConfusion hwA
          | some j =>
              rw [hap] at hwA
              have hwB : (match s1.get? j with
                  | some (.quadratic _ _) => some (⟨j, 1⟩ : SubSlot)
                  | some (.bezier _ _ _) => some ⟨j, 3⟩
                  | _ => none) = some w := hwA
              cases hgj : s1.get? j with
              | none => rw [hgj] at hwB; exact Option.noConfusion hwB
              | some pinst =>
                  rw [hgj] at hwB
                  cases pinst with
                  | quadratic c p2 =>
                      obtain rfl : (⟨j, 1⟩ : SubSlot) = w := Option.some.inj hwB
                      rw [hgj] at hwin
                      obtain rfl := Option.some.inj hwin
                      rfl
                  | bezier c1 c2 p2 =>
                      obtain rfl : (⟨j, 3⟩ : SubSlot) = w := Option.some.inj hwB
                      rw [hgj] at hwin
                      obtain rfl := Option.some.inj hwin
                      rfl
                  | start p2 => exact Option.noConfusion hwB
                  | line p2 => exact Option.noConfusion hwB
                  | close => exact Option.noConfusion hwB
      | quadratic c p =>
          obtain rfl : (⟨i, 1⟩ : SubSlot) = w := Option.some.inj hw
          rw [hgi] at hwin
          obtain rfl := Option.some.inj hwin
          rfl
      | bezier c1 c2 p =>
          obtain rfl : (⟨i, 3⟩ : SubSlot) = w := Option.some.inj hw
          rw [hgi] at hwin
          obtain rfl := Option.some.inj hwin
          rfl
      | line p => exact Option.noConfusion hw
      | close => exact Option.noConfusion hw

theorem map_view_isClose {o1 o2 : Option Instruction}
    (h : o1.map instrView = o2.map instrView) :
    o1.map Instruction.isClose = o2.map Instruction.isClose := by
  cases o1 <;> cases o2 <;> simp_all [instrView]

theorem map_view_endCrood {o1 o2 : Option Instruction}
    (h : o1.map instrView = o2.map instrView) :
    o1.map endCrood = o2.map endCrood := by
  cases o1 <;> cases o2 <;> simp_all [instrView]

theorem ctrlSlot_next (s1 s2 : List Instruction) (i : ℕ)
    (hview : ∀ m, (s2.get? m).map instrView = (s1.get? m).map instrView) :
    CtrlSlot s2 (nextPointSub s1 i) := by
  intro w hw winst hwin val
  unfold nextPointSub at hw
  cases han : aroundNext s1 i with
  | none => rw [han] at hw; exact Option.noConfusion hw
  | some j =>
      rw [han] at hw
      have hwB : (match s1.get? j with
          | some (.quadratic _ _) => some (⟨j, 1⟩ : SubSlot)
          | some (.bezier _ _ _) => some ⟨j, 1⟩
          | _ => none) = some w := hw
      cases hgj : s1.get? j with
      | none => rw [hgj] at hwB; exact Option.noConfusion hwB
      | some ninst =>
          rw [hgj] at hwB
          have hcurve_of : ninst.isCurve = true → winst.isCurve = true := by
            intro hni
            have hv := hview w.idx
            rw [hwin] at hv
            cases hs1w : s1.get? w.idx with
            | none => rw [hs1w] at hv; exact Option.noConfusion hv
            | some zinst =>
                rw [hs1w] at hv
                have hz : instrView winst = instrView zinst := by simpa using hv
                have hjw : w.idx = j := by
                  cases ninst with
                  | quadratic c p2 =>
                      obtain rfl : (⟨j, 1⟩ : SubSlot) = w := Option.some.inj hwB
                      rfl
                  | bezier c1 c2 p2 =>
                      obtain rfl : (⟨j, 1⟩ : SubSlot) = w := Option.some.inj hwB
                      rfl
                  | start p2 => exact Option.noConfusion hwB
                  | line p2 => exact Option.noConfusion hwB
                  | close => exact Option.noConfusion hwB
                rw [hjw, hgj] at hs1w
                obtain rfl := Option.some.inj hs1w
                have := congrArg (fun t => t.2.2) hz
                simpa [instrView, hni] using this
          cases ninst with
          | quadratic c p2 =>
              obtain rfl : (⟨j, 1⟩ : SubSlot) = w := Option.some.inj hwB
              exact curve_write_one (hcurve_of rfl) val
          | bezier c1 c2 p2 =>
              obtain rfl : (⟨j, 1⟩ : SubSlot) = w := Option.some.inj hwB
              exact curve_write_one (hcurve_of rfl) val
          | start p2 => exact Option.noConfusion hwB
          | line p2 => exact Option.noConfusion hwB
          | close => exact Option.noConfusion hwB

theorem moveWrites_view (s : List Instruction) (i : ℕ) (q : Crood) (cur : Instruction) :
    (moveWrites s i q cur).length = s.length
      ∧ ∀ m, ((moveWrites s i q cur).get? m).map instrView
          = ((s.set i (writeTerminal cur q)).get? m).map instrView := by
  have hA := applySlot_view (s.set i (writeTerminal cur q)) (s.set i (writeTerminal cur q))
    (prePointSub (s.set i (writeTerminal cur q)) i)
    ⟨q.x - (endCrood cur).x, q.y - (endCrood cur).y⟩
    (ctrlSlot_pre (s.set i (writeTerminal cur q)) i)
  have hB := applySlot_view (s.set i (writeTerminal cur q))
    (applySlot (s.set i (writeTerminal cur q)) (s.set i (writeTerminal cur q))
      (prePointSub (s.set i (writeTerminal cur q)) i)
      ⟨q.x - (endCrood cur).x, q.y - (endCrood cur).y⟩)
    (nextPointSub (s.set i (writeTerminal cur q)) i)
    ⟨q.x - (endCrood cur).x, q.y - (endCrood cur).y⟩
    (ctrlSlot_next (s.set i (writeTerminal cur q)) _ i hA.2)
  constructor
  · show (moveWrites s i q cur).length = s.length
    unfold moveWrites
    rw [hB.1, hA.1, List.length_set]
  · intro m
    show ((moveWrites s i q cur).get? m).map instrView = _
    unfold moveWrites
    rw [hB.2 m, hA.2 m]

theorem get_before_close_some :
    ∀ (mid : List Instruction) (x : Instruction),
      (x :: mid ++ [Instruction.close]).get? mid.length
        = some (List.getLastD mid x) := by
  intro mid
  induction mid with
  | nil => intro x; rfl
  | cons m ms ih =>
      intro x
      show (m :: ms ++ [Instruction.close]).get? ms.length = _
      rw [ih m, List.getLastD_cons]

theorem getLastD_mem : ∀ (l : List Instruction) (x : Instruction), l ≠ [] →
    l.getLastD x ∈ l := by
  intro l
  induction l with
  | nil => intro x h; exact absurd rfl h
  | cons a as ih =>
      intro x _
      rw [List.getLastD_cons]
      by_cases has : as = []
      · subst has; simp
      · exact List.mem_cons_of_mem a (ih a has)

theorem view_some {l1 : List Instruction} {m : ℕ} {z : Instruction}
    (h : (l1.get? m).map instrView = (some z).map instrView) :
    ∃ w, l1.get? m = some w ∧ instrView w = instrView z := by
  cases hw : l1.get? m with
  | none => rw [hw] at h; exact Option.noConfusion h
  | some w => rw [hw] at h; exact ⟨w, rfl, by simpa using h⟩

/-- C3: on a normalized closed subpath `M p, segments, z`, an anchor move
through `move` preserves the closed-loop coincidence between the anchor
immediately preceding `z` and the subpath's `M` anchor; when the moved
anchor is the `M` anchor itself, the synchronisation write of `move`
(src/src/index.ts lines 2613-2625) also sets the pre-`z` terminal coordinate
to the new position, so both equal it. -/
theorem moveAnchor_closed_coincidence (p q : Crood) (body : List Instruction)
    (s : List Instruction) (i : ℕ)
    (hs : s = Instruction.start p :: body ++ [Instruction.close])
    (hsegs : ∀ inst ∈ body, inst.isSeg = true)
    (hne : body ≠ [])
    (hi : validAnchor s i = true)
    (hcoin : ((s.get? (s.length - 2)).map endCrood).getD ⟨0, 0⟩
      = ((s.get? 0).map endCrood).getD ⟨0, 0⟩) :
    (moveInSub s i q).length = s.length
    ∧ (((moveInSub s i q).get? (s.length - 2)).map endCrood).getD ⟨0, 0⟩
      = (((moveInSub s i q).get? 0).map endCrood).getD ⟨0, 0⟩
    ∧ (i = 0 → (((moveInSub s i q).get? 0).map endCrood).getD ⟨0, 0⟩ = q) := by
  subst hs
  have hlen : (Instruction.start p :: body ++ [Instruction.close]).length
      = body.length + 2 := by simp
  have hk2 : (Instruction.start p :: body ++ [Instruction.close]).length - 2
      = body.length := by rw [hlen]; omega
  have hg0 : (Instruction.start p :: body ++ [Instruction.close]).get? 0
      = some (Instruction.start p) := rfl
  have hgk := get_before_close_some body (Instruction.start p)
  have hgk1 : (Instruction.start p :: body ++ [Instruction.close]).get?
      (body.length + 1) = some Instruction.close := by
    have h := List.get?_concat_length (Instruction.start p :: body) Instruction.close
    simpa using h
  have hlastmem := getLastD_mem body (Instruction.start p) hne
  have hlseg := hsegs _ hlastmem
  have hlc : (body.getLastD (Instruction.start p)).isClose = false :=
    isClose_of_seg hlseg
  unfold validAnchor at hi
  rw [Bool.and_eq_true] at hi
  obtain ⟨hi1, hi2⟩ := hi
  have hik : i ≠ body.length := by
    intro h
    rw [h, hgk1] at hi2
    simp [Instruction.isClose] at hi2
  cases hgi : (Instruction.start p :: body ++ [Instruction.close]).get? i with
  | none => rw [hgi] at hi1; simp at hi1
  | some cur =>
      have hcurc : cur.isClose = false := by
        rw [hgi] at hi1
        simpa using hi1
      have hik1 : i ≠ body.length + 1 := by
        intro h
        rw [h, hgk1] at hgi
        obtain rfl : Instruction.close = cur := Option.some.inj hgi
        simp [Instruction.isClose] at hcurc
      have hmove : moveInSub (Instruction.start p :: body ++ [Instruction.close]) i q
          = moveSync
            (moveWrites (Instruction.start p :: body ++ [Instruction.close]) i q cur) i
            ((Instruction.start p :: body ++ [Instruction.close]).length - 2) q := by
        unfold moveInSub
        rw [hgi]
      obtain ⟨hlen3, hview⟩ := moveWrites_view
        (Instruction.start p :: body ++ [Instruction.close]) i q cur
      set S3 := moveWrites (Instruction.start p :: body ++ [Instruction.close]) i q cur
        with hS3
      have hset_ne : ∀ m, i ≠ m →
          ((Instruction.start p :: body ++ [Instruction.close]).set i
            (writeTerminal cur q)).get? m
          = (Instruction.start p :: body ++ [Instruction.close]).get? m :=
        fun m hm => List.get?_set_ne _ _ hm
      have hviewk : (S3.get? body.length).map instrView
          = (some (body.getLastD (Instruction.start p))).map instrView := by
        rw [hview body.length, hset_ne body.length hik, hgk]
      have hviewk1 : (S3.get? (body.length + 1)).map instrView
          = (some Instruction.close).map instrView := by
        rw [hview (body.length + 1), hset_ne (body.length + 1) hik1, hgk1]
      obtain ⟨w3, hw3, hv3⟩ := view_some hviewk
      obtain ⟨w4, hw4, hv4⟩ := view_some hviewk1
      have hw3c : w3.isClose = false := by
        have h1 : w3.isClose = (body.getLastD (Instruction.start p)).isClose := by
          have h := congrArg (fun t => t.2.1) hv3
          simpa [instrView] using h
        rw [h1, hlc]
      have hw3e : endCrood w3 = endCrood (body.getLastD (Instruction.start p)) := by
        have h := congrArg Prod.fst hv3
        simpa [instrView] using h
      have hw4c : w4 = Instruction.close := by
        have h1 : w4.isClose = Instruction.close.isClose := by
          have h := congrArg (fun t => t.2.1) hv4
          simpa [instrView] using h
        exact eq_close_of_isClose (by simpa [Instruction.isClose] using h1)
      have hlen3' : S3.length = body.length + 2 := by rw [hlen3, hlen]
      have hlast3 : S3.getLast? = some Instruction.close := by
        rw [List.getLast?_eq_get?, hlen3']
        show S3.get? (body.length + 1) = some Instruction.close
        rw [hw4, hw4c]
      by_cases hi0 : i = 0
      · subst hi0
        rw [hg0] at hgi
        obtain rfl : Instruction.start p = cur := Option.some.inj hgi
        have hkpos : 0 < body.length := List.length_pos.mpr hne
        have hbl0 : body.length ≠ 0 := by omega
        have hblt : body.length < S3.length := by rw [hlen3']; omega
        have h0lt : (0 : ℕ)
            < (Instruction.start p :: body ++ [Instruction.close]).length := by
          rw [hlen]; omega
        have hcond : 2 ≤ S3.length ∧ (0 : ℕ) ≠ body.length
            ∧ ((S3.get? body.length).map Instruction.isClose).getD true = false
            ∧ (0 : ℕ) = 0
            ∧ S3.getLast? = some Instruction.close := by
          refine ⟨?_, ?_, ?_, rfl, hlast3⟩
          · rw [hlen3']; omega
          · omega
          · rw [hw3]; simp [hw3c]
        have hsync : moveSync S3 0
            ((Instruction.start p :: body ++ [Instruction.close]).length - 2) q
            = S3.set body.length
              (writeTerminal ((S3.get? body.length).getD Instruction.close) q) := by
          rw [hk2]
          unfold moveSync
          rw [if_pos hcond]
        rw [hw3, Option.getD_some] at hsync
        have hview0 : (S3.get? 0).map instrView
            = (some (Instruction.start q)).map instrView := by
          rw [hview 0, List.get?_set_eq_of_lt _ h0lt]
          rfl
        obtain ⟨w0, hw0, hv0⟩ := view_some hview0
        have hw0e : endCrood w0 = q := by
          have h := congrArg Prod.fst hv0
          simpa [instrView, endCrood] using h
        rw [hmove, hsync]
        refine ⟨?_, ?_, fun _ => ?_⟩
        · rw [List.length_set]; exact hlen3
        · rw [hk2, List.get?_set_eq_of_lt _ hblt, List.get?_set_ne _ _ hbl0, hw0]
          show endCrood (writeTerminal w3 q) = endCrood w0
          rw [endCrood_writeTerminal hw3c, hw0e]
        · rw [List.get?_set_ne _ _ hbl0, hw0]
          show endCrood w0 = q
          exact hw0e
      · have hsync : moveSync S3 i
            ((Instruction.start p :: body ++ [Instruction.close]).length - 2) q
            = S3 := by
          unfold moveSync
          rw [if_neg (fun h => hi0 h.2.2.2.1)]
        have hview0 : (S3.get? 0).map instrView
            = (some (Instruction.start p)).map instrView := by
          rw [hview 0, hset_ne 0 hi0, hg0]
        obtain ⟨w0, hw0, hv0⟩ := view_some hview0
        have hw0e : endCrood w0 = p := by
          have h := congrArg Prod.fst hv0
          simpa [instrView, endCrood] using h
        rw [hk2, hgk, hg0] at hcoin
        have hcoin' : endCrood (body.getLastD (Instruction.start p)) = p := by
          simpa [endCrood] using hcoin
        rw [hmove, hsync]
        refine ⟨hlen3, ?_, fun h => absurd h hi0⟩
        rw [hk2, hw3, hw0]
        show endCrood w3 = endCrood w0
        rw [hw3e, hw0e]
        exact hcoin'

/-- Concrete instance: moving the `M` anchor of the closed square-ish subpath
`M 0 0 L 10 0 L 10 10 L 0 0 z` to `(5,5)` keeps the length, re-establishes
the coincidence between the pre-`z` anchor and the `M` anchor, and both
become the new position. -/
theorem moveAnchor_closed_coincidence_witness :
    (moveInSub [Instruction.start ⟨0, 0⟩, Instruction.line ⟨10, 0⟩,
        Instruction.line ⟨10, 10⟩, Instruction.line ⟨0, 0⟩, Instruction.close]
        0 ⟨5, 5⟩).length
      = ([Instruction.start ⟨0, 0⟩, Instruction.line ⟨10, 0⟩,
          Instruction.line ⟨10, 10⟩, Instruction.line ⟨0, 0⟩,
          Instruction.close] : List Instruction).length
    ∧ (((moveInSub [Instruction.start ⟨0, 0⟩, Instruction.line ⟨10, 0⟩,
          Instruction.line ⟨10, 10⟩, Instruction.line ⟨0, 0⟩, Instruction.close]
          0 ⟨5, 5⟩).get?
          (([Instruction.start ⟨0, 0⟩, Instruction.line ⟨10, 0⟩,
            Instruction.line ⟨10, 10⟩, Instruction.line ⟨0, 0⟩,
            Instruction.close] : List Instruction).length - 2)).map endCrood).getD ⟨0, 0⟩
      = (((moveInSub [Instruction.start ⟨0, 0⟩, Instruction.line ⟨10, 0⟩,
          Instruction.line ⟨10, 10⟩, Instruction.line ⟨0, 0⟩, Instruction.close]
          0 ⟨5, 5⟩).get? 0).map endCrood).getD ⟨0, 0⟩
    ∧ ((0 : ℕ) = 0 →
        (((moveInSub [Instruction.start ⟨0, 0⟩, Instruction.line ⟨10, 0⟩,
          Instruction.line ⟨10, 10⟩, Instruction.line ⟨0, 0⟩, Instruction.close]
          0 ⟨5, 5⟩).get? 0).map endCrood).getD ⟨0, 0⟩ = ⟨5, 5⟩) :=
  moveAnchor_closed_coincidence ⟨0, 0⟩ ⟨5, 5⟩
    [Instruction.line ⟨10, 0⟩, Instruction.line ⟨10, 10⟩, Instruction.line ⟨0, 0⟩]
    [Instruction.start ⟨0, 0⟩, Instruction.line ⟨10, 0⟩, Instruction.line ⟨10, 10⟩,
      Instruction.line ⟨0, 0⟩, Instruction.close]
    0 rfl (by decide) (List.cons_ne_nil _ _) (by decide) rfl
